import Mathlib

/-!
# maxcovr distance helpers: a shallow embedding of `src/distanceHelpers.cpp`

The C++ file works on `double` values through the operators of the language
and the functions of `math.h`, and on Rcpp matrices.  The embedding keeps the
source's functions computable by taking the arithmetic of `double` as a
parameter (`DoubleOps`): every operator and library call of the source appears
as one field of that record, in the order the source applies it.  Structural
facts (shapes, which cell holds what) are proved for every arithmetic.

Three arithmetics instantiate the record.  `ieeeOps` is IEEE 754 binary64:
the values are NaN, the infinities and the finite doubles, the four operators
and `sqrt` round to nearest with ties to even, and the functions `sin`, `cos`,
`pow`, `atan2`, which the standard does not fix, come from a `Libm`; what the
functions return in doubles is evaluated and proved there.  `realOps` is the
arithmetic of exact real numbers, in which the formula of the source is
studied without rounding; `nanOps` adds the value NaN to it.

An Rcpp matrix is a contiguous column-major vector with its two dimensions;
`m(i, j)` addresses storage cell `i + nrow * j` without a bounds check.
`distance_matrix_cpp` and `binary_matrix_cpp` are the two builders as long as
every access stays inside the storage (`none` marks an access outside it);
`distance_matrix_unchecked` and `binary_matrix_unchecked` are the builders for
all inputs, a read outside the storage returning what the memory holds there.
The two agree whenever the former return a matrix
(`distance_matrix_unchecked_eq`, `binary_matrix_unchecked_eq`).

The functions `distance_matrix_traced` and `binary_matrix_traced` are the two
builders with a record of every matrix access; they return the same matrices
(`distance_matrix_traced_erase`, `binary_matrix_traced_erase`).
-/

namespace Maxcovr

/-! ## The arithmetic the source uses -/

/-- The operations on `double` that `distanceHelpers.cpp` applies: the
conversion of an `int` constant, the constant `M_PI`, the four operators,
the functions `sin`, `cos`, `sqrt`, `pow`, `atan2` of `math.h`, and the two
comparisons `<=` and `>` (kept apart: on a NaN both are false). -/
structure DoubleOps (D : Type) where
  ofInt : Int → D
  M_PI : D
  add : D → D → D
  sub : D → D → D
  mul : D → D → D
  div : D → D → D
  sin : D → D
  cos : D → D
  sqrt : D → D
  pow : D → D → D
  atan2 : D → D → D
  le : D → D → Bool
  gt : D → D → Bool

/-- Exact real arithmetic: `M_PI` is π, `pow` is the real power, `sqrt` the
real square root and `atan2 y x` the argument of the point `(x, y)` of the
plane, in `(-π, π]`. -/
noncomputable def realOps : DoubleOps ℝ where
  ofInt := fun n => (n : ℝ)
  M_PI := Real.pi
  add := fun x y => x + y
  sub := fun x y => x - y
  mul := fun x y => x * y
  div := fun x y => x / y
  sin := Real.sin
  cos := Real.cos
  sqrt := Real.sqrt
  pow := fun x y => x ^ y
  atan2 := fun y x => Complex.arg ⟨x, y⟩
  le := fun x y => decide (x ≤ y)
  gt := fun x y => decide (y < x)

/-! ## Rcpp matrices -/

/-- A dense matrix as Rcpp stores it: `nrow`, `ncol` and the column-major
storage, whose length is `nrow * ncol`. -/
structure Matrix (α : Type) where
  nrow : Nat
  ncol : Nat
  data : List α
  size_eq : data.length = nrow * ncol

/-- Storage index of cell `(i, j)`: `i + nrow * j`. -/
def Matrix.offset {α : Type} (m : Matrix α) (i j : Nat) : Nat :=
  i + m.nrow * j

/-- The constructor `Matrix(n1, n2)` of Rcpp, which allocates the storage of
an `n1` by `n2` matrix and fills it with zero (`z` is the zero of the cell
type). -/
def Matrix.filled {α : Type} (n1 n2 : Nat) (z : α) : Matrix α :=
  { nrow := n1, ncol := n2, data := List.replicate (n1 * n2) z,
    size_eq := List.length_replicate (n1 * n2) z }

/-- Read `m(i, j)`; `none` when the storage index is outside the storage. -/
def Matrix.get? {α : Type} (m : Matrix α) (i j : Nat) : Option α :=
  m.data[m.offset i j]?

/-- Write `m(i, j) = v`; `none` when the storage index is outside the
storage. -/
def Matrix.set? {α : Type} (m : Matrix α) (i j : Nat) (v : α) : Option (Matrix α) :=
  if m.offset i j < m.data.length then
    some { nrow := m.nrow, ncol := m.ncol, data := m.data.set (m.offset i j) v,
           size_eq := (List.length_set m.data (m.offset i j) v).trans m.size_eq }
  else none

/-! ## The functions of `distanceHelpers.cpp` -/

/-- Lines 14-16: `return ((deg*M_PI)/180);`. -/
def deg2rad_cpp {D : Type} (o : DoubleOps D) (deg : D) : D :=
  o.div (o.mul deg o.M_PI) (o.ofInt 180)

/-- Lines 30-53: the haversine distance in metres. -/
def spherical_distance_cpp {D : Type} (o : DoubleOps D)
    (lat1 long1 lat2 long2 : D) : D :=
  let radius_earth : Int := 6371
  let lat1 := deg2rad_cpp o lat1
  let long1 := deg2rad_cpp o long1
  let lat2 := deg2rad_cpp o lat2
  let long2 := deg2rad_cpp o long2
  let a := o.add (o.pow (o.sin (o.div (o.sub lat2 lat1) (o.ofInt 2))) (o.ofInt 2))
    (o.mul (o.mul (o.cos lat1) (o.cos lat2))
      (o.pow (o.sin (o.div (o.sub long2 long1) (o.ofInt 2))) (o.ofInt 2)))
  let d := o.mul (o.mul (o.ofInt 2) (o.atan2 (o.sqrt a) (o.sqrt (o.sub (o.ofInt 1) a))))
    (o.ofInt radius_earth)
  let d := o.mul d (o.ofInt 1000)
  d

/-- Lines 75-78: the body of the inner loop of `distance_matrix_cpp`, the
assignment to `dist_mat(i,j)`. -/
def distance_cell {D : Type} (o : DoubleOps D) (facility user : Matrix D)
    (i j : Nat) (dist_mat : Matrix D) : Option (Matrix D) := do
  let lat1 ← user.get? i 0
  let long1 ← user.get? i 1
  let lat2 ← facility.get? j 0
  let long2 ← facility.get? j 1
  dist_mat.set? i j (spherical_distance_cpp o lat1 long1 lat2 long2)

/-- Lines 65-84: the two counted loops run over `0 .. n1-1` and `0 .. n2-1`
in increasing order. -/
def distance_matrix_cpp {D : Type} (o : DoubleOps D) (facility user : Matrix D) :
    Option (Matrix D) :=
  let n1 := user.nrow
  let n2 := facility.nrow
  let dist_mat : Matrix D := Matrix.filled n1 n2 (o.ofInt 0)
  (List.range n1).foldlM
    (fun dist_mat i =>
      (List.range n2).foldlM
        (fun dist_mat j => distance_cell o facility user i j dist_mat) dist_mat)
    dist_mat

/-- Lines 113-117: the body of the inner loop of `binary_matrix_cpp`; each of
the two conditions reads `dist_mat(i,j)`.  When neither comparison holds the
cell is left as the constructor filled it. -/
def binary_cell {D : Type} (o : DoubleOps D) (dist_mat : Matrix D)
    (distance_cutoff : D) (i j : Nat) (bin_mat : Matrix Int) : Option (Matrix Int) := do
  let d ← dist_mat.get? i j
  if o.le d distance_cutoff then
    bin_mat.set? i j 1
  else
    let d ← dist_mat.get? i j
    if o.gt d distance_cutoff then
      bin_mat.set? i j 0
    else
      pure bin_mat

/-- Lines 98-123.  The matrix declared at line 107 is replaced at line 109 by
the result of `distance_matrix_cpp`. -/
def binary_matrix_cpp {D : Type} (o : DoubleOps D) (facility user : Matrix D)
    (distance_cutoff : D) : Option (Matrix Int) := do
  let n1 := user.nrow
  let n2 := facility.nrow
  let bin_mat : Matrix Int := Matrix.filled n1 n2 0
  let _dist_mat : Matrix D := Matrix.filled n1 n2 (o.ofInt 0)
  let dist_mat ← distance_matrix_cpp o facility user
  (List.range n1).foldlM
    (fun bin_mat i =>
      (List.range n2).foldlM
        (fun bin_mat j => binary_cell o dist_mat distance_cutoff i j bin_mat) bin_mat)
    bin_mat

/-! ## Intermediate values of `spherical_distance_cpp` -/

/-- Lines 38-44: the value of the local `a`, from the four angles in
degrees. -/
def haversine_a {D : Type} (o : DoubleOps D) (lat1 long1 lat2 long2 : D) : D :=
  let lat1 := deg2rad_cpp o lat1
  let long1 := deg2rad_cpp o long1
  let lat2 := deg2rad_cpp o lat2
  let long2 := deg2rad_cpp o long2
  o.add (o.pow (o.sin (o.div (o.sub lat2 lat1) (o.ofInt 2))) (o.ofInt 2))
    (o.mul (o.mul (o.cos lat1) (o.cos lat2))
      (o.pow (o.sin (o.div (o.sub long2 long1) (o.ofInt 2))) (o.ofInt 2)))

/-- Line 46: the two values handed to `sqrt`, from the value of `a`. -/
def sqrt_args {D : Type} (o : DoubleOps D) (a : D) : D × D :=
  (a, o.sub (o.ofInt 1) a)

/-- Lines 46-51: the returned distance, from the value of `a`. -/
def distance_of_a {D : Type} (o : DoubleOps D) (a : D) : D :=
  let radius_earth : Int := 6371
  let d := o.mul (o.mul (o.ofInt 2)
      (o.atan2 (o.sqrt (sqrt_args o a).1) (o.sqrt (sqrt_args o a).2)))
    (o.ofInt radius_earth)
  let d := o.mul d (o.ofInt 1000)
  d

/-- The clamping of a value to the interval `[0, 1]`, as the specification
words it: `min(1, max(0, a))`. -/
noncomputable def clamp_unit (a : ℝ) : ℝ :=
  min 1 (max 0 a)

/-! ## Example inputs -/

/-- The matrix `facility_test_cpp` of the R example of the source file
(lines 141-145): 2 rows, 4 columns, stored column by column. -/
noncomputable def facility_test_cpp : Matrix ℝ :=
  { nrow := 2, ncol := 4,
    data := [46.19616, 46.16757, 8.731278, 9.027957, 1, 2, 1, 1],
    size_eq := rfl }

/-- The matrix `user_test_cpp` of the R example of the source file
(lines 147-159): 10 rows, 4 columns, stored column by column. -/
noncomputable def user_test_cpp : Matrix ℝ :=
  { nrow := 10, ncol := 4,
    data := [46.16850, 46.17690, 46.17690, 46.17690, 46.17690, 46.01372, 46.15254,
      45.92970, 45.92970, 46.00018,
      9.004392, 8.822994, 8.822994, 8.822994, 8.822994, 8.963890, 8.773423,
      8.921419, 8.921419, 8.946929,
      1, 1, 1, 1, 1, 1, 1, 1, 1, 1,
      1, 2, 3, 4, 5, 6, 7, 8, 9, 10],
    size_eq := rfl }

/-- A single point, as a matrix of 1 row and 2 columns. -/
noncomputable def one_point (lat long : ℝ) : Matrix ℝ :=
  { nrow := 1, ncol := 2, data := [lat, long], size_eq := rfl }

/-- A single point, as a matrix of 1 row and 2 columns, in any arithmetic. -/
def point_matrix {D : Type} (lat long : D) : Matrix D :=
  { nrow := 1, ncol := 2, data := [lat, long], size_eq := rfl }

/-- The first two columns of `facility_test_cpp`. -/
noncomputable def facility_test_points : Matrix ℝ :=
  { nrow := 2, ncol := 2,
    data := [46.19616, 46.16757, 8.731278, 9.027957],
    size_eq := rfl }

/-- The first two columns of `user_test_cpp`. -/
noncomputable def user_test_points : Matrix ℝ :=
  { nrow := 10, ncol := 2,
    data := [46.16850, 46.17690, 46.17690, 46.17690, 46.17690, 46.01372, 46.15254,
      45.92970, 45.92970, 46.00018,
      9.004392, 8.822994, 8.822994, 8.822994, 8.822994, 8.963890, 8.773423,
      8.921419, 8.921419, 8.946929],
    size_eq := rfl }

/-! ## Rational enclosures of sine and cosine -/

/-- Lower end of the enclosure of `sin x` for `0 <= xl <= x <= xu <= 1`. -/
noncomputable def sin_lo (xl xu : ℝ) : ℝ :=
  xl - xu ^ 3 / 6 - xu ^ 4 * (5 / 96)

/-- Upper end of the enclosure of `sin x` for `0 <= xl <= x <= xu <= 1`. -/
noncomputable def sin_hi (xl xu : ℝ) : ℝ :=
  xu - xl ^ 3 / 6 + xu ^ 4 * (5 / 96)

/-- Lower end of the enclosure of `cos x` for `0 <= xl <= x <= xu <= 1`. -/
noncomputable def cos_lo (xu : ℝ) : ℝ :=
  1 - xu ^ 2 / 2 - xu ^ 4 * (5 / 96)

/-- Upper end of the enclosure of `cos x` for `0 <= xl <= x <= xu <= 1`. -/
noncomputable def cos_hi (xl xu : ℝ) : ℝ :=
  1 - xl ^ 2 / 2 + xu ^ 4 * (5 / 96)

/-! ## Recorded accesses -/

/-- The four matrices that the two builders read or write. -/
inductive Target where
  | user
  | facility
  | dist_mat
  | bin_mat
  deriving DecidableEq

/-- One access `m(i, j)`: the matrix, whether it is a write, and the cell. -/
structure Access where
  target : Target
  write : Bool
  i : Nat
  j : Nat
  deriving DecidableEq

/-- The access lies inside the storage of its matrix; `dist_mat` and
`bin_mat` have `nrow(user)` rows and `nrow(facility)` columns. -/
def Access.in_bounds {D : Type} (facility user : Matrix D) (a : Access) : Prop :=
  match a.target with
  | Target.user => user.offset a.i a.j < user.data.length
  | Target.facility => facility.offset a.i a.j < facility.data.length
  | Target.dist_mat => a.i + user.nrow * a.j < user.nrow * facility.nrow
  | Target.bin_mat => a.i + user.nrow * a.j < user.nrow * facility.nrow

/-- Lines 75-78 with the accesses recorded, in the order of evaluation written
in the source. -/
def distance_cell_traced {D : Type} (o : DoubleOps D) (facility user : Matrix D)
    (i j : Nat) (st : Matrix D × List Access) : Option (Matrix D × List Access) := do
  let lat1 ← user.get? i 0
  let long1 ← user.get? i 1
  let lat2 ← facility.get? j 0
  let long2 ← facility.get? j 1
  let dist_mat ← st.1.set? i j (spherical_distance_cpp o lat1 long1 lat2 long2)
  pure (dist_mat, st.2 ++ [Access.mk Target.user false i 0, Access.mk Target.user false i 1,
    Access.mk Target.facility false j 0, Access.mk Target.facility false j 1,
    Access.mk Target.dist_mat true i j])

/-- Lines 65-84 with the accesses recorded. -/
def distance_matrix_traced {D : Type} (o : DoubleOps D) (facility user : Matrix D) :
    Option (Matrix D × List Access) :=
  let n1 := user.nrow
  let n2 := facility.nrow
  let dist_mat : Matrix D := Matrix.filled n1 n2 (o.ofInt 0)
  (List.range n1).foldlM
    (fun st i =>
      (List.range n2).foldlM
        (fun st j => distance_cell_traced o facility user i j st) st)
    (dist_mat, [])

/-- Lines 113-117 with the accesses recorded. -/
def binary_cell_traced {D : Type} (o : DoubleOps D) (dist_mat : Matrix D)
    (distance_cutoff : D) (i j : Nat) (st : Matrix Int × List Access) :
    Option (Matrix Int × List Access) := do
  let d ← dist_mat.get? i j
  if o.le d distance_cutoff then
    let bin_mat ← st.1.set? i j 1
    pure (bin_mat, st.2 ++ [Access.mk Target.dist_mat false i j,
      Access.mk Target.bin_mat true i j])
  else
    let d ← dist_mat.get? i j
    if o.gt d distance_cutoff then
      let bin_mat ← st.1.set? i j 0
      pure (bin_mat, st.2 ++ [Access.mk Target.dist_mat false i j,
        Access.mk Target.dist_mat false i j, Access.mk Target.bin_mat true i j])
    else
      pure (st.1, st.2 ++ [Access.mk Target.dist_mat false i j,
        Access.mk Target.dist_mat false i j])

/-- Lines 98-123 with the accesses recorded, those of the call of
`distance_matrix_cpp` first. -/
def binary_matrix_traced {D : Type} (o : DoubleOps D) (facility user : Matrix D)
    (distance_cutoff : D) : Option (Matrix Int × List Access) := do
  let n1 := user.nrow
  let n2 := facility.nrow
  let bin_mat : Matrix Int := Matrix.filled n1 n2 0
  let traced ← distance_matrix_traced o facility user
  (List.range n1).foldlM
    (fun st i =>
      (List.range n2).foldlM
        (fun st j => binary_cell_traced o traced.1 distance_cutoff i j st) st)
    (bin_mat, traced.2)

/-! ## Arithmetic with NaN -/

/-- Exact real arithmetic with one more value, NaN (`none`): every operation
returns NaN on a NaN argument, `sqrt` of a negative number is NaN, and both
comparisons are false when an argument is NaN.  Infinite values are not
represented: the source divides by the constants 180 and 2 only. -/
noncomputable def nanOps : DoubleOps (Option ℝ) where
  ofInt := fun n => some (n : ℝ)
  M_PI := some Real.pi
  add := fun x y => x.bind fun a => y.bind fun b => some (a + b)
  sub := fun x y => x.bind fun a => y.bind fun b => some (a - b)
  mul := fun x y => x.bind fun a => y.bind fun b => some (a * b)
  div := fun x y => x.bind fun a => y.bind fun b => some (a / b)
  sin := fun x => x.bind fun a => some (Real.sin a)
  cos := fun x => x.bind fun a => some (Real.cos a)
  sqrt := fun x => x.bind fun a => if 0 ≤ a then some (Real.sqrt a) else none
  pow := fun x y => x.bind fun a => y.bind fun b => some (a ^ b)
  atan2 := fun y x => y.bind fun b => x.bind fun a => some (Complex.arg ⟨a, b⟩)
  le := fun x y =>
    match x, y with
    | some a, some b => decide (a ≤ b)
    | _, _ => false
  gt := fun x y =>
    match x, y with
    | some a, some b => decide (b < a)
    | _, _ => false

/-- A user whose two coordinates are NaN (a missing value of R). -/
noncomputable def nan_user : Matrix (Option ℝ) :=
  { nrow := 1, ncol := 2, data := [none, none], size_eq := rfl }

/-- A facility at latitude 0 and longitude 0. -/
noncomputable def origin_facility : Matrix (Option ℝ) :=
  { nrow := 1, ncol := 2, data := [some 0, some 0], size_eq := rfl }

/-! ## IEEE 754 double arithmetic -/

/-- The values of IEEE 754 binary64: NaN, the two infinities and the finite
doubles, each given by the rational number it denotes.  The sign of a zero is
not represented. -/
inductive Double where
  | nan
  | inf (negative : Bool)
  | fin (q : ℚ)
  deriving DecidableEq

/-- Position of the leading binary digit of `n` (0 for `n < 2`), by repeated
halving; `fuel` bounds the number of steps. -/
def log2_halving : Nat → Nat → Nat
  | 0, _ => 0
  | fuel + 1, n => if n < 2 then 0 else log2_halving fuel (n / 2) + 1

/-- The integer `e` with `2 ^ e <= a < 2 ^ (e + 1)`, for a positive rational
`a`. -/
def binary_exponent (a : ℚ) : ℤ :=
  let k : ℤ := (log2_halving a.num.natAbs a.num.natAbs : ℤ) - (log2_halving a.den a.den : ℤ)
  if (2 : ℚ) ^ k ≤ a then k else k - 1

/-- The integer nearest to `t`, the even one of the two when `t` lies half way
between them. -/
def round_half_even (t : ℚ) : ℤ :=
  let f : ℤ := ⌊t⌋
  if t - f < 1 / 2 then f
  else if 1 / 2 < t - f then f + 1
  else if f % 2 = 0 then f else f + 1

/-- The magnitude of the double nearest to a positive rational `a`, ties to
the even significand, before the test for overflow: 53 significant bits, and
gradual underflow below `2 ^ (-1022)`. -/
def round_magnitude (a : ℚ) : ℚ :=
  let u : ℤ := max (binary_exponent a) (-1022) - 52
  round_half_even (a / (2 : ℚ) ^ u) * (2 : ℚ) ^ u

/-- Rounding of a rational number to the nearest double, ties to the even
significand, with overflow to an infinity from `2 ^ 1024`. -/
def Double.round (q : ℚ) : Double :=
  if q = 0 then Double.fin 0
  else if (2 : ℚ) ^ (1024 : ℤ) ≤ round_magnitude |q| then Double.inf (decide (q < 0))
  else Double.fin (if q < 0 then -round_magnitude |q| else round_magnitude |q|)

/-- The opposite of a double. -/
def Double.neg : Double → Double
  | Double.nan => Double.nan
  | Double.inf s => Double.inf (!s)
  | Double.fin q => Double.fin (-q)

/-- Addition of doubles. -/
def Double.add : Double → Double → Double
  | Double.nan, _ => Double.nan
  | _, Double.nan => Double.nan
  | Double.inf s, Double.inf t => if s = t then Double.inf s else Double.nan
  | Double.inf s, Double.fin _ => Double.inf s
  | Double.fin _, Double.inf t => Double.inf t
  | Double.fin a, Double.fin b => Double.round (a + b)

/-- Subtraction of doubles: the sum with the opposite. -/
def Double.sub (x y : Double) : Double :=
  Double.add x (Double.neg y)

/-- Multiplication of doubles. -/
def Double.mul : Double → Double → Double
  | Double.nan, _ => Double.nan
  | _, Double.nan => Double.nan
  | Double.inf s, Double.inf t => Double.inf (s != t)
  | Double.inf s, Double.fin b => if b = 0 then Double.nan else Double.inf (s != decide (b < 0))
  | Double.fin a, Double.inf t => if a = 0 then Double.nan else Double.inf (decide (a < 0) != t)
  | Double.fin a, Double.fin b => Double.round (a * b)

/-- Division of doubles; a zero divisor counts as `+0`. -/
def Double.div : Double → Double → Double
  | Double.nan, _ => Double.nan
  | _, Double.nan => Double.nan
  | Double.inf _, Double.inf _ => Double.nan
  | Double.inf s, Double.fin b => Double.inf (s != decide (b < 0))
  | Double.fin _, Double.inf _ => Double.fin 0
  | Double.fin a, Double.fin b =>
    if b = 0 then (if a = 0 then Double.nan else Double.inf (decide (a < 0)))
    else Double.round (a / b)

/-- Newton iteration for the integer square root, from a start above it. -/
def isqrt_iter (n : Nat) : Nat → Nat → Nat
  | 0, x => x
  | fuel + 1, x =>
    let y := (x + n / x) / 2
    if y < x then isqrt_iter n fuel y else x

/-- The integer square root: the largest `s` with `s * s <= n`. -/
def isqrt (n : Nat) : Nat :=
  if n = 0 then 0 else isqrt_iter n n (2 ^ (log2_halving n n / 2 + 1))

/-- The correctly rounded square root of a positive rational: the integer
square root of `q * 4 ^ k`, with more than 54 digits, decides the rounding. -/
def Double.sqrt_pos (q : ℚ) : Double :=
  let k : ℤ := (111 - binary_exponent q) / 2
  let scaled : ℚ := q * (4 : ℚ) ^ k
  let s : Nat := isqrt ⌊scaled⌋.toNat
  if ((s * s : Nat) : ℚ) = scaled then Double.round ((s : ℚ) / (2 : ℚ) ^ k)
  else Double.round ((2 * s + 1 : Nat) / (2 : ℚ) ^ (k + 1))

/-- The square root of a double: NaN below zero. -/
def Double.sqrt : Double → Double
  | Double.nan => Double.nan
  | Double.inf s => if s then Double.nan else Double.inf false
  | Double.fin q => if q < 0 then Double.nan else if q = 0 then Double.fin 0
    else Double.sqrt_pos q

/-- The comparison `<=` of doubles: false when an argument is NaN. -/
def Double.le : Double → Double → Bool
  | Double.nan, _ => false
  | _, Double.nan => false
  | Double.inf s, Double.inf t => s || !t
  | Double.inf s, Double.fin _ => s
  | Double.fin _, Double.inf t => !t
  | Double.fin a, Double.fin b => decide (a ≤ b)

/-- The comparison `>` of doubles: false when an argument is NaN. -/
def Double.gt : Double → Double → Bool
  | Double.nan, _ => false
  | _, Double.nan => false
  | Double.inf s, Double.inf t => !s && t
  | Double.inf s, Double.fin _ => !s
  | Double.fin _, Double.inf t => t
  | Double.fin a, Double.fin b => decide (b < a)

/-- The comparison `==` of doubles: false when an argument is NaN. -/
def Double.eq : Double → Double → Bool
  | Double.nan, _ => false
  | _, Double.nan => false
  | Double.inf s, Double.inf t => s == t
  | Double.inf _, Double.fin _ => false
  | Double.fin _, Double.inf _ => false
  | Double.fin a, Double.fin b => decide (a = b)

/-- The functions of `math.h` whose results IEEE 754 does not fix. -/
structure Libm where
  sin : Double → Double
  cos : Double → Double
  pow : Double → Double → Double
  atan2 : Double → Double → Double

/-- The arithmetic of IEEE 754 doubles, with the functions `sin`, `cos`,
`pow` and `atan2` of a given libm; `M_PI` is the double nearest to π. -/
def ieeeOps (l : Libm) : DoubleOps Double where
  ofInt := fun n => Double.round n
  M_PI := Double.fin (884279719003555 / 281474976710656)
  add := Double.add
  sub := Double.sub
  mul := Double.mul
  div := Double.div
  sin := l.sin
  cos := l.cos
  sqrt := Double.sqrt
  pow := l.pow
  atan2 := l.atan2
  le := Double.le
  gt := Double.gt

/-- The sine of the table at a finite argument that is not negative, at the
four arguments that the evaluations reach: 0, the radian value of 8 degrees,
and the doubles nearest to π/4 and π/2.  The entries are the doubles nearest
to the exact sine (`libm_table_nearest`); NaN stands for an argument outside
the table. -/
def sin_table (q : ℚ) : Double :=
  if q = 0 then Double.fin 0
  else if q = 5030569068109113 / 36028797018963968 then
    Double.fin (5014239404989977 / 36028797018963968)
  else if q = 884279719003555 / 1125899906842624 then
    Double.fin (1592262918131443 / 2251799813685248)
  else if q = 884279719003555 / 562949953421312 then Double.fin 1
  else Double.nan

/-- The cosine of the table at a finite argument that is not negative: at 0,
at the radian value of 8 degrees (the double nearest to the exact cosine,
`libm_table_nearest`) and at the double nearest to π/2, where the value is
`6.123233995736766e-17`. -/
def cos_table (q : ℚ) : Double :=
  if q = 0 then Double.fin 1
  else if q = 5030569068109113 / 36028797018963968 then
    Double.fin (4459770905381437 / 4503599627370496)
  else if q = 884279719003555 / 562949953421312 then
    Double.fin (4967757600021511 / 81129638414606681695789005144064)
  else Double.nan

/-- A libm known at the arguments that the evaluations below reach, with the
values that glibc returns there.  `sin` is odd and `cos` even, both are NaN at
NaN and at the infinities, `pow(x, 2)` is the rounded product `x * x`, and
`atan2` is NaN when an argument is NaN. -/
def libm_table : Libm where
  sin := fun x =>
    match x with
    | Double.fin q => if q < 0 then Double.neg (sin_table (-q)) else sin_table q
    | _ => Double.nan
  cos := fun x =>
    match x with
    | Double.fin q => if q < 0 then cos_table (-q) else cos_table q
    | _ => Double.nan
  pow := fun x y => if y = Double.fin 2 then Double.mul x x else Double.nan
  atan2 := fun y x =>
    if y = Double.fin 0 ∧ x = Double.fin 1 then Double.fin 0
    else if y = Double.fin 1 ∧ x = Double.fin 0 then
      Double.fin (884279719003555 / 562949953421312)
    else if y = Double.fin (7025470172532437 / 162259276829213363391578010288128) ∧
        x = Double.fin 1 then
      Double.fin (7025470172532437 / 162259276829213363391578010288128)
    else Double.nan

/-- The clamping of a double to `[0, 1]`, as the specification words it:
`min(1, max(0, a))`. -/
def Double.clamp_unit : Double → Double
  | Double.fin q => Double.fin (min 1 (max 0 q))
  | Double.inf s => if s then Double.fin 0 else Double.fin 1
  | Double.nan => Double.nan

/-! ## Taylor polynomials of cosine and sine -/

/-- The even part of the Taylor polynomial of the exponential at `x * I`. -/
noncomputable def cos_poly (n : Nat) (x : ℝ) : ℝ :=
  ∑ k in Finset.range n, (-1) ^ k * x ^ (2 * k) / ((2 * k).factorial : ℝ)

/-- The odd part of the Taylor polynomial of the exponential at `x * I`. -/
noncomputable def sin_poly (n : Nat) (x : ℝ) : ℝ :=
  ∑ k in Finset.range n, (-1) ^ k * x ^ (2 * k + 1) / ((2 * k + 1).factorial : ℝ)

/-! ## The builders with unchecked reads -/

/-- Read `m(i, j)` as Rcpp's unchecked `operator()` does: inside the storage
the cell, outside it whatever the memory holds at that index (`beyond`). -/
def Matrix.read {α : Type} (m : Matrix α) (beyond : Nat → α) (i j : Nat) : α :=
  match m.data[m.offset i j]? with
  | some v => v
  | none => beyond (m.offset i j)

/-- Write `m(i, j) = v` into the storage (the builders write inside the
storage only). -/
def Matrix.write {α : Type} (m : Matrix α) (i j : Nat) (v : α) : Matrix α :=
  { nrow := m.nrow, ncol := m.ncol, data := m.data.set (m.offset i j) v,
    size_eq := (List.length_set m.data (m.offset i j) v).trans m.size_eq }

/-- Lines 65-84 with unchecked reads: `beyond t` is the content of the memory
past the storage of the matrix `t`. -/
def distance_matrix_unchecked {D : Type} (o : DoubleOps D) (beyond : Target → Nat → D)
    (facility user : Matrix D) : Matrix D :=
  let n1 := user.nrow
  let n2 := facility.nrow
  let dist_mat : Matrix D := Matrix.filled n1 n2 (o.ofInt 0)
  (List.range n1).foldl
    (fun dist_mat i =>
      (List.range n2).foldl
        (fun dist_mat j =>
          dist_mat.write i j (spherical_distance_cpp o
            (user.read (beyond Target.user) i 0) (user.read (beyond Target.user) i 1)
            (facility.read (beyond Target.facility) j 0)
            (facility.read (beyond Target.facility) j 1)))
        dist_mat)
    dist_mat

/-- Lines 98-123 with unchecked reads. -/
def binary_matrix_unchecked {D : Type} (o : DoubleOps D) (beyond : Target → Nat → D)
    (facility user : Matrix D) (distance_cutoff : D) : Matrix Int :=
  let n1 := user.nrow
  let n2 := facility.nrow
  let bin_mat : Matrix Int := Matrix.filled n1 n2 0
  let dist_mat := distance_matrix_unchecked o beyond facility user
  (List.range n1).foldl
    (fun bin_mat i =>
      (List.range n2).foldl
        (fun bin_mat j =>
          if o.le (dist_mat.read (beyond Target.dist_mat) i j) distance_cutoff then
            bin_mat.write i j 1
          else if o.gt (dist_mat.read (beyond Target.dist_mat) i j) distance_cutoff then
            bin_mat.write i j 0
          else bin_mat)
        bin_mat)
    bin_mat

/-! ## Predicates used by the proofs -/

/-- State of a matrix that two nested counted loops fill cell by cell, when
rows below `k` and the first `l` cells of row `k` have been visited: visited
cells hold a value that satisfies `R`, the others still hold the fill value. -/
def FillInv {β : Type} (n1 n2 : Nat) (z : β) (R : Nat → Nat → β → Prop)
    (k l : Nat) (m : Matrix β) : Prop :=
  m.nrow = n1 ∧ m.ncol = n2 ∧
  (∀ i j, i < n1 → j < n2 → (i < k ∨ (i = k ∧ j < l)) →
    ∃ v, m.get? i j = some v ∧ R i j v) ∧
  (∀ i j, i < n1 → j < n2 → ¬ (i < k ∨ (i = k ∧ j < l)) → m.get? i j = some z)

/-! ## Loops and matrix cells -/

/-- A counted loop in which every pass succeeds and carries an invariant from
`k` to `k + 1` succeeds and ends with the invariant at `n`. -/
theorem foldlM_range_inv {σ : Type} (f : σ → Nat → Option σ) (P : Nat → σ → Prop)
    (n : Nat) (s0 : σ) (h0 : P 0 s0)
    (hstep : ∀ k s, k < n → P k s → ∃ t, f s k = some t ∧ P (k + 1) t) :
    ∃ s, (List.range n).foldlM f s0 = some s ∧ P n s := by
  induction n with
  | zero => exact ⟨s0, rfl, h0⟩
  | succ n ih =>
    obtain ⟨s, hs, hP⟩ := ih (fun k s hk hp => hstep k s (Nat.lt_succ_of_lt hk) hp)
    obtain ⟨t, ht, hQ⟩ := hstep n s (Nat.lt_succ_self n) hP
    refine ⟨t, ?_, hQ⟩
    rw [List.range_succ, List.foldlM_append, hs]
    simp [ht]

/-- Two cells of rows below `nrow` share a storage index only when they are
the same cell. -/
theorem Matrix.offset_inj {α : Type} (m : Matrix α) {i j k l : Nat}
    (hi : i < m.nrow) (hk : k < m.nrow) (h : m.offset i j = m.offset k l) :
    i = k ∧ j = l := by
  unfold Matrix.offset at h
  have hmod : (i + m.nrow * j) % m.nrow = (k + m.nrow * l) % m.nrow := by rw [h]
  rw [Nat.add_mul_mod_self_left, Nat.add_mul_mod_self_left, Nat.mod_eq_of_lt hi,
    Nat.mod_eq_of_lt hk] at hmod
  subst hmod
  have hpos : 0 < m.nrow := Nat.lt_of_le_of_lt (Nat.zero_le i) hi
  have h2 : m.nrow * j = m.nrow * l := Nat.add_left_cancel h
  exact ⟨rfl, Nat.eq_of_mul_eq_mul_left hpos h2⟩

/-- A cell inside the two dimensions lies inside the storage. -/
theorem Matrix.offset_lt {α : Type} (m : Matrix α) {i j : Nat}
    (hi : i < m.nrow) (hj : j < m.ncol) : m.offset i j < m.data.length := by
  rw [m.size_eq]
  unfold Matrix.offset
  calc i + m.nrow * j < m.nrow + m.nrow * j := Nat.add_lt_add_right hi _
    _ = m.nrow * (j + 1) := by rw [Nat.mul_succ, Nat.add_comm]
    _ ≤ m.nrow * m.ncol := Nat.mul_le_mul_left _ hj

/-- A read inside the two dimensions returns a value. -/
theorem Matrix.get?_of_lt {α : Type} (m : Matrix α) {i j : Nat}
    (hi : i < m.nrow) (hj : j < m.ncol) : ∃ v, m.get? i j = some v := by
  have h := m.offset_lt hi hj
  exact ⟨m.data[m.offset i j], by simp [Matrix.get?, h]⟩

/-- Every cell of a freshly constructed matrix holds the fill value. -/
theorem Matrix.get?_filled {α : Type} (n1 n2 : Nat) (z : α) {i j : Nat}
    (hi : i < n1) (hj : j < n2) : (Matrix.filled n1 n2 z).get? i j = some z := by
  have h := (Matrix.filled n1 n2 z).offset_lt hi hj
  simp only [Matrix.filled, List.length_replicate] at h
  simp only [Matrix.get?, Matrix.filled]
  exact List.getElem?_replicate_of_lt h

/-- A write inside the two dimensions succeeds, keeps the shape, stores the
value in its cell and leaves every other cell as it was. -/
theorem Matrix.set?_spec {α : Type} (m : Matrix α) {i j : Nat} (v : α)
    (hi : i < m.nrow) (hj : j < m.ncol) :
    ∃ t, m.set? i j v = some t ∧ t.nrow = m.nrow ∧ t.ncol = m.ncol ∧
      t.get? i j = some v ∧
      ∀ k l, k < m.nrow → ¬ (k = i ∧ l = j) → t.get? k l = m.get? k l := by
  have h := m.offset_lt hi hj
  refine ⟨_, if_pos h, rfl, rfl, ?_, ?_⟩
  · simp only [Matrix.get?, Matrix.offset]
    exact List.getElem?_set_self h
  · intro k l hk hne
    simp only [Matrix.get?]
    have hoff : m.offset i j ≠ m.offset k l := fun e =>
      hne ((m.offset_inj hi hk e).1.symm ▸ (m.offset_inj hi hk e).2.symm ▸ ⟨rfl, rfl⟩)
    exact List.getElem?_set_ne hoff

theorem fill_loops {β : Type} (n1 n2 : Nat) (z : β)
    (cell : Nat → Nat → Matrix β → Option (Matrix β)) (R : Nat → Nat → β → Prop)
    (hcell : ∀ i j m, i < n1 → j < n2 → m.nrow = n1 → m.ncol = n2 →
      m.get? i j = some z →
      ∃ t v, cell i j m = some t ∧ t.nrow = n1 ∧ t.ncol = n2 ∧ t.get? i j = some v ∧
        R i j v ∧ ∀ k l, k < n1 → ¬ (k = i ∧ l = j) → t.get? k l = m.get? k l) :
    ∃ m, (List.range n1).foldlM
        (fun m i => (List.range n2).foldlM (fun m j => cell i j m) m)
        (Matrix.filled n1 n2 z) = some m ∧
      m.nrow = n1 ∧ m.ncol = n2 ∧
      ∀ i j, i < n1 → j < n2 → ∃ v, m.get? i j = some v ∧ R i j v := by
  have houter := foldlM_range_inv
    (fun m i => (List.range n2).foldlM (fun m j => cell i j m) m)
    (fun k m => FillInv n1 n2 z R k 0 m) n1 (Matrix.filled n1 n2 z)
    ⟨rfl, rfl, fun i j _ _ h => by omega,
      fun i j hi hj _ => Matrix.get?_filled n1 n2 z hi hj⟩
    (by
      intro k m hk hinv
      have hinner := foldlM_range_inv (fun m j => cell k j m)
        (fun l m => FillInv n1 n2 z R k l m) n2 m hinv
        (by
          intro l s hl hs
          obtain ⟨hr, hc, hdone, htodo⟩ := hs
          obtain ⟨t, v, ht, htr, htc, htv, hR, hrest⟩ :=
            hcell k l s hk hl hr hc (htodo k l hk hl (by omega))
          refine ⟨t, ht, htr, htc, ?_, ?_⟩
          · intro i j hi hj hij
            by_cases hsame : i = k ∧ j = l
            · obtain ⟨rfl, rfl⟩ := hsame
              exact ⟨v, htv, hR⟩
            · rw [hrest i j hi hsame]
              exact hdone i j hi hj (by omega)
          · intro i j hi hj hij
            rw [hrest i j hi (by omega)]
            exact htodo i j hi hj (by omega))
      obtain ⟨t, ht, hr, hc, hdone, htodo⟩ := hinner
      refine ⟨t, ht, hr, hc, ?_, ?_⟩
      · intro i j hi hj hij
        exact hdone i j hi hj (by omega)
      · intro i j hi hj hij
        exact htodo i j hi hj (by omega))
  obtain ⟨m, hm, hr, hc, hdone, _⟩ := houter
  exact ⟨m, hm, hr, hc, fun i j hi hj => hdone i j hi hj (by omega)⟩

/-- A write that succeeds keeps the shape. -/
theorem Matrix.set?_shape {α : Type} (m t : Matrix α) (i j : Nat) (v : α)
    (h : m.set? i j v = some t) : t.nrow = m.nrow ∧ t.ncol = m.ncol := by
  unfold Matrix.set? at h
  split at h
  · cases h
    exact ⟨rfl, rfl⟩
  · cases h

/-- A property that every successful pass of a loop keeps holds after the
loop, when the loop succeeds. -/
theorem foldlM_preserves {σ : Type} (f : σ → Nat → Option σ) (P : σ → Prop)
    (hstep : ∀ s k t, P s → f s k = some t → P t) (l : List Nat) :
    ∀ s t, P s → l.foldlM f s = some t → P t := by
  induction l with
  | nil =>
    intro s t hs h
    cases h
    exact hs
  | cons k l ih =>
    intro s t hs h
    rw [List.foldlM_cons] at h
    cases hk : f s k with
    | none => rw [hk] at h; cases h
    | some u =>
      rw [hk] at h
      exact ih u t (hstep s k u hs hk) h

/-- Whenever `distance_matrix_cpp` returns, the result has `nrow(user)` rows
and `nrow(facility)` columns. -/
theorem distance_matrix_shape {D : Type} (o : DoubleOps D) (facility user dm : Matrix D)
    (h : distance_matrix_cpp o facility user = some dm) :
    dm.nrow = user.nrow ∧ dm.ncol = facility.nrow := by
  refine foldlM_preserves
    (fun m i => (List.range facility.nrow).foldlM
      (fun m j => distance_cell o facility user i j m) m)
    (fun m : Matrix D => m.nrow = user.nrow ∧ m.ncol = facility.nrow) ?_
    (List.range user.nrow) (Matrix.filled user.nrow facility.nrow (o.ofInt 0)) dm
    ⟨rfl, rfl⟩ h
  intro s i t hs hi
  refine foldlM_preserves (fun m j => distance_cell o facility user i j m)
    (fun m : Matrix D => m.nrow = user.nrow ∧ m.ncol = facility.nrow) ?_
    (List.range facility.nrow) s t hs hi
  intro s j t hs hj
  simp only [distance_cell, Option.bind_eq_bind, Option.bind_eq_some] at hj
  obtain ⟨_, _, _, _, _, _, _, _, hset⟩ := hj
  have := Matrix.set?_shape s t i j _ hset
  exact ⟨this.1.trans hs.1, this.2.trans hs.2⟩

/-- When every read of the two loops is inside the storage (both matrices have
two columns, or one of them has no row), `distance_matrix_cpp` returns an
`nrow(user)` by `nrow(facility)` matrix whose cell `(i, j)` holds the
distance computed from columns 0 and 1 of user row `i` and facility row `j`. -/
theorem distance_matrix_cells {D : Type} (o : DoubleOps D) (facility user : Matrix D)
    (H : user.nrow = 0 ∨ facility.nrow = 0 ∨ (2 ≤ facility.ncol ∧ 2 ≤ user.ncol)) :
    ∃ dm, distance_matrix_cpp o facility user = some dm ∧
      dm.nrow = user.nrow ∧ dm.ncol = facility.nrow ∧
      ∀ i j, i < user.nrow → j < facility.nrow →
        ∃ v, dm.get? i j = some v ∧
          ∃ lat1 long1 lat2 long2, user.get? i 0 = some lat1 ∧
            user.get? i 1 = some long1 ∧ facility.get? j 0 = some lat2 ∧
            facility.get? j 1 = some long2 ∧
            v = spherical_distance_cpp o lat1 long1 lat2 long2 := by
  refine fill_loops user.nrow facility.nrow (o.ofInt 0)
    (fun i j m => distance_cell o facility user i j m) _ ?_
  intro i j m hi hj hr hc _
  have hcols : 2 ≤ facility.ncol ∧ 2 ≤ user.ncol := by
    rcases H with h | h | h
    · omega
    · omega
    · exact h
  obtain ⟨lat1, h1⟩ := user.get?_of_lt hi (show 0 < user.ncol by omega)
  obtain ⟨long1, h2⟩ := user.get?_of_lt hi (show 1 < user.ncol by omega)
  obtain ⟨lat2, h3⟩ := facility.get?_of_lt hj (show 0 < facility.ncol by omega)
  obtain ⟨long2, h4⟩ := facility.get?_of_lt hj (show 1 < facility.ncol by omega)
  obtain ⟨t, ht, htr, htc, htv, hrest⟩ :=
    m.set?_spec (spherical_distance_cpp o lat1 long1 lat2 long2)
      (show i < m.nrow by omega) (show j < m.ncol by omega)
  refine ⟨t, _, ?_, htr.trans hr, htc.trans hc, htv,
    ⟨lat1, long1, lat2, long2, h1, h2, h3, h4, rfl⟩, ?_⟩
  · simp [distance_cell, h1, h2, h3, h4, ht]
  · intro k l hk hne
    exact hrest k l (by omega) hne

/-- Whenever `distance_matrix_cpp` returns a matrix, `binary_matrix_cpp`
returns one of the same shape whose cell `(i, j)` is 1 when the distance in
that cell is `<=` the cutoff and 0 otherwise. -/
theorem binary_matrix_cells {D : Type} (o : DoubleOps D) (facility user : Matrix D)
    (distance_cutoff : D) (dm : Matrix D)
    (h : distance_matrix_cpp o facility user = some dm) :
    ∃ bm, binary_matrix_cpp o facility user distance_cutoff = some bm ∧
      bm.nrow = user.nrow ∧ bm.ncol = facility.nrow ∧
      ∀ i j, i < user.nrow → j < facility.nrow →
        ∃ v, bm.get? i j = some v ∧
          ∃ d, dm.get? i j = some d ∧
            v = if o.le d distance_cutoff = true then 1 else 0 := by
  obtain ⟨hdr, hdc⟩ := distance_matrix_shape o facility user dm h
  have hloops := fill_loops user.nrow facility.nrow (0 : Int)
    (fun i j m => binary_cell o dm distance_cutoff i j m)
    (fun i j v => ∃ d, dm.get? i j = some d ∧
      v = if o.le d distance_cutoff = true then 1 else 0)
    (by
      intro i j m hi hj hr hc hz
      obtain ⟨d, hd⟩ := dm.get?_of_lt (show i < dm.nrow by omega) (show j < dm.ncol by omega)
      by_cases hle : o.le d distance_cutoff = true
      · obtain ⟨t, ht, htr, htc, htv, hrest⟩ :=
          m.set?_spec (1 : Int) (show i < m.nrow by omega) (show j < m.ncol by omega)
        refine ⟨t, 1, ?_, htr.trans hr, htc.trans hc, htv, ⟨d, hd, by simp [hle]⟩, ?_⟩
        · simp [binary_cell, hd, hle, ht]
        · intro k l hk hne
          exact hrest k l (by omega) hne
      · by_cases hgt : o.gt d distance_cutoff = true
        · obtain ⟨t, ht, htr, htc, htv, hrest⟩ :=
            m.set?_spec (0 : Int) (show i < m.nrow by omega) (show j < m.ncol by omega)
          refine ⟨t, 0, ?_, htr.trans hr, htc.trans hc, htv, ⟨d, hd, by simp [hle]⟩, ?_⟩
          · simp [binary_cell, hd, hle, hgt, ht]
          · intro k l hk hne
            exact hrest k l (by omega) hne
        · refine ⟨m, 0, ?_, hr, hc, hz, ⟨d, hd, by simp [hle]⟩, fun _ _ _ _ => rfl⟩
          simp [binary_cell, hd, hle, hgt])
  obtain ⟨bm, hbm, hshape⟩ := hloops
  refine ⟨bm, ?_, hshape⟩
  simp only [binary_matrix_cpp, h, Option.bind_eq_bind, Option.some_bind]
  exact hbm

/-! ## Exact real arithmetic -/

/-- Over the reals `deg2rad_cpp` is `deg * π / 180`. -/
theorem deg2rad_real (deg : ℝ) : deg2rad_cpp realOps deg = deg * Real.pi / 180 := by
  simp [deg2rad_cpp, realOps]

/-- The value of `a` over the reals, with the squares written out. -/
theorem haversine_a_real (lat1 long1 lat2 long2 : ℝ) :
    haversine_a realOps lat1 long1 lat2 long2 =
      Real.sin ((lat2 * Real.pi / 180 - lat1 * Real.pi / 180) / 2) ^ 2 +
        Real.cos (lat1 * Real.pi / 180) * Real.cos (lat2 * Real.pi / 180) *
          Real.sin ((long2 * Real.pi / 180 - long1 * Real.pi / 180) / 2) ^ 2 := by
  simp [haversine_a, deg2rad_cpp, realOps]

/-- The source function is the tail of lines 46-51 applied to the value of
line 44. -/
theorem spherical_distance_eq {D : Type} (o : DoubleOps D) (lat1 long1 lat2 long2 : D) :
    spherical_distance_cpp o lat1 long1 lat2 long2 =
      distance_of_a o (haversine_a o lat1 long1 lat2 long2) := rfl

/-- The haversine intermediate written with angles: a mean of two squares. -/
theorem haversine_mix (p1 p2 l : ℝ) :
    Real.sin ((p2 - p1) / 2) ^ 2 + Real.cos p1 * Real.cos p2 * Real.sin (l / 2) ^ 2 =
      (1 - Real.sin (l / 2) ^ 2) * Real.sin ((p2 - p1) / 2) ^ 2 +
        Real.sin (l / 2) ^ 2 * Real.cos ((p1 + p2) / 2) ^ 2 := by
  have h1 : Real.cos p1 * Real.cos p2 =
      Real.cos ((p1 + p2) / 2) ^ 2 - Real.sin ((p2 - p1) / 2) ^ 2 := by
    have e1 : p1 = (p1 + p2) / 2 - (p2 - p1) / 2 := by ring
    have e2 : p2 = (p1 + p2) / 2 + (p2 - p1) / 2 := by ring
    conv_lhs => rw [e1]; arg 2; rw [e2]
    rw [Real.cos_sub, Real.cos_add]
    have s1 := Real.sin_sq_add_cos_sq ((p1 + p2) / 2)
    have s2 := Real.sin_sq_add_cos_sq ((p2 - p1) / 2)
    nlinarith [s1, s2]
  rw [h1]
  ring

/-- Over the reals the value of `a` lies in `[0, 1]`, whatever the angles. -/
theorem haversine_a_unit (lat1 long1 lat2 long2 : ℝ) :
    0 ≤ haversine_a realOps lat1 long1 lat2 long2 ∧
      haversine_a realOps lat1 long1 lat2 long2 ≤ 1 := by
  rw [haversine_a_real, haversine_mix]
  set s := Real.sin ((long2 * Real.pi / 180 - long1 * Real.pi / 180) / 2) ^ 2 with hs
  set u := Real.sin ((lat2 * Real.pi / 180 - lat1 * Real.pi / 180) / 2) ^ 2 with hu
  set w := Real.cos ((lat1 * Real.pi / 180 + lat2 * Real.pi / 180) / 2) ^ 2 with hw
  have hs0 : 0 ≤ s := sq_nonneg _
  have hs1 : s ≤ 1 := Real.sin_sq_le_one _
  have hu0 : 0 ≤ u := sq_nonneg _
  have hu1 : u ≤ 1 := Real.sin_sq_le_one _
  have hw0 : 0 ≤ w := sq_nonneg _
  have hw1 : w ≤ 1 := Real.cos_sq_le_one _
  constructor
  · have := mul_nonneg (sub_nonneg.mpr hs1) hu0
    have := mul_nonneg hs0 hw0
    linarith
  · have h1 : (1 - s) * u ≤ (1 - s) * 1 := mul_le_mul_of_nonneg_left hu1 (sub_nonneg.mpr hs1)
    have h2 : s * w ≤ s * 1 := mul_le_mul_of_nonneg_left hw1 hs0
    linarith

/-- Over the reals, for `a` in `[0, 1]`, `atan2(sqrt(a), sqrt(1 - a))` is the
arc sine of `sqrt(a)`. -/
theorem atan2_sqrt_real (a : ℝ) (h0 : 0 ≤ a) (h1 : a ≤ 1) :
    realOps.atan2 (realOps.sqrt a) (realOps.sqrt (realOps.sub (realOps.ofInt 1) a)) =
      Real.arcsin (Real.sqrt a) := by
  have hre : 0 ≤ (⟨Real.sqrt (1 - a), Real.sqrt a⟩ : ℂ).re := Real.sqrt_nonneg _
  have habs : Complex.abs ⟨Real.sqrt (1 - a), Real.sqrt a⟩ = 1 := by
    rw [Complex.abs_apply, Complex.normSq_mk, ← sq, ← sq, Real.sq_sqrt (sub_nonneg.mpr h1),
      Real.sq_sqrt h0]
    simp
  simp only [realOps, Int.cast_one]
  rw [Complex.arg_of_re_nonneg hre, habs]
  simp

/-- Over the reals, for `a` in `[0, 1]`, the returned distance is
`2 * arcsin(sqrt(a)) * 6371 * 1000`. -/
theorem distance_of_a_real (a : ℝ) (h0 : 0 ≤ a) (h1 : a ≤ 1) :
    distance_of_a realOps a = 2 * Real.arcsin (Real.sqrt a) * 6371 * 1000 := by
  have h := atan2_sqrt_real a h0 h1
  simp only [distance_of_a, sqrt_args]
  rw [h]
  simp [realOps]

/-- The central angle `2 * arcsin(sqrt(a))` lies in `[0, π]` and its cosine is
`1 - 2 * a`. -/
theorem central_angle (a : ℝ) (h0 : 0 ≤ a) (h1 : a ≤ 1) :
    0 ≤ 2 * Real.arcsin (Real.sqrt a) ∧ 2 * Real.arcsin (Real.sqrt a) ≤ Real.pi ∧
      Real.cos (2 * Real.arcsin (Real.sqrt a)) = 1 - 2 * a := by
  have hs0 : 0 ≤ Real.sqrt a := Real.sqrt_nonneg a
  have hs1 : Real.sqrt a ≤ 1 := Real.sqrt_le_one.mpr h1
  refine ⟨?_, ?_, ?_⟩
  · have := Real.arcsin_nonneg.mpr hs0
    linarith
  · have := Real.arcsin_le_pi_div_two (Real.sqrt a)
    linarith
  · rw [Real.cos_two_mul, Real.cos_sq', Real.sin_arcsin (by linarith) hs1, Real.sq_sqrt h0]
    ring

/-- The square of the sine of a half angle. -/
theorem sin_half_sq (x : ℝ) : Real.sin (x / 2) ^ 2 = (1 - Real.cos x) / 2 := by
  have h1 := Real.cos_two_mul (x / 2)
  have h2 := Real.cos_sq' (x / 2)
  have h3 : 2 * (x / 2) = x := by ring
  rw [h3] at h1
  linarith

/-- Over the reals the distance is `2 * arcsin(sqrt(a)) * 6371 * 1000` with
`a` the value of line 44. -/
theorem spherical_distance_real (lat1 long1 lat2 long2 : ℝ) :
    spherical_distance_cpp realOps lat1 long1 lat2 long2 =
      2 * Real.arcsin (Real.sqrt (haversine_a realOps lat1 long1 lat2 long2)) *
        6371 * 1000 := by
  obtain ⟨h0, h1⟩ := haversine_a_unit lat1 long1 lat2 long2
  rw [spherical_distance_eq, distance_of_a_real _ h0 h1]

/-- Over the reals the distance is never negative. -/
theorem spherical_distance_nonneg (lat1 long1 lat2 long2 : ℝ) :
    0 ≤ spherical_distance_cpp realOps lat1 long1 lat2 long2 := by
  obtain ⟨h0, h1⟩ := haversine_a_unit lat1 long1 lat2 long2
  obtain ⟨hθ, _, _⟩ := central_angle _ h0 h1
  rw [spherical_distance_real]
  positivity

/-- In exact real arithmetic, swapping the two points does not change the
distance. -/
theorem spherical_distance_symm (lat1 long1 lat2 long2 : ℝ) :
    spherical_distance_cpp realOps lat1 long1 lat2 long2 =
      spherical_distance_cpp realOps lat2 long2 lat1 long1 := by
  have ha : haversine_a realOps lat1 long1 lat2 long2 =
      haversine_a realOps lat2 long2 lat1 long1 := by
    rw [haversine_a_real, haversine_a_real, sin_half_sq, sin_half_sq, sin_half_sq,
      sin_half_sq, ← Real.cos_neg (lat2 * Real.pi / 180 - lat1 * Real.pi / 180),
      ← Real.cos_neg (long2 * Real.pi / 180 - long1 * Real.pi / 180), neg_sub, neg_sub]
    ring
  rw [spherical_distance_eq, spherical_distance_eq, ha]

/-- In exact real arithmetic, the distance from a point to itself is 0. -/
theorem spherical_distance_self (lat long : ℝ) :
    spherical_distance_cpp realOps lat long lat long = 0 := by
  have ha : haversine_a realOps lat long lat long = 0 := by
    rw [haversine_a_real]
    simp
  rw [spherical_distance_real, ha]
  simp

/-! ## The matrix builders -/

/-- C1: whenever `distance_matrix_cpp(facility, user)` is defined, so is
`binary_matrix_cpp(facility, user, cutoff)`, and for every `i < nrow(user)`
and `j < nrow(facility)` its cell `(i, j)` is 1 if the distance in cell
`(i, j)` is `<=` the cutoff and 0 otherwise. -/
theorem binary_matrix_threshold {D : Type} (o : DoubleOps D) (facility user : Matrix D)
    (distance_cutoff : D) (dm : Matrix D)
    (h : distance_matrix_cpp o facility user = some dm) :
    ∃ bm, binary_matrix_cpp o facility user distance_cutoff = some bm ∧
      ∀ i j, i < user.nrow → j < facility.nrow →
        ∃ d, dm.get? i j = some d ∧
          bm.get? i j = some (if o.le d distance_cutoff = true then 1 else 0) := by
  obtain ⟨bm, hbm, _, _, hcells⟩ := binary_matrix_cells o facility user distance_cutoff dm h
  refine ⟨bm, hbm, fun i j hi hj => ?_⟩
  obtain ⟨v, hv, d, hd, hvd⟩ := hcells i j hi hj
  exact ⟨d, hd, hvd ▸ hv⟩

/-- Witness of C1: one facility, one user, the cutoff equal to the distance
between them; the single cell of the result is 1. -/
theorem binary_matrix_threshold_witness :
    ∃ bm, binary_matrix_cpp realOps (one_point 46.19616 8.731278)
        (one_point 46.16850 9.004392)
        (spherical_distance_cpp realOps 46.16850 9.004392 46.19616 8.731278) = some bm ∧
      bm.get? 0 0 = some 1 := by
  obtain ⟨bm, hbm, hcells⟩ := binary_matrix_threshold realOps (one_point 46.19616 8.731278)
    (one_point 46.16850 9.004392)
    (spherical_distance_cpp realOps 46.16850 9.004392 46.19616 8.731278)
    (Matrix.mk 1 1 [spherical_distance_cpp realOps 46.16850 9.004392 46.19616 8.731278] rfl)
    rfl
  obtain ⟨d, hd, hcell⟩ := hcells 0 0 (by decide) (by decide)
  refine ⟨bm, hbm, ?_⟩
  have hd2 : d = spherical_distance_cpp realOps 46.16850 9.004392 46.19616 8.731278 :=
    (Option.some.inj hd).symm
  rw [hcell, hd2]
  simp [realOps]

/-- C2: for matrices with at least two columns `distance_matrix_cpp` returns a
matrix whose cell `(i, j)`, for `i < nrow(user)` and `j < nrow(facility)`, is
`spherical_distance_cpp(user(i,0), user(i,1), facility(j,0), facility(j,1))`:
rows index users, columns index facilities, column 0 is passed as latitude and
column 1 as longitude. -/
theorem distance_matrix_entries {D : Type} (o : DoubleOps D) (facility user : Matrix D)
    (hf : 2 ≤ facility.ncol) (hu : 2 ≤ user.ncol) :
    ∃ dm, distance_matrix_cpp o facility user = some dm ∧
      ∀ i j, i < user.nrow → j < facility.nrow →
        ∃ lat1 long1 lat2 long2, user.get? i 0 = some lat1 ∧
          user.get? i 1 = some long1 ∧ facility.get? j 0 = some lat2 ∧
          facility.get? j 1 = some long2 ∧
          dm.get? i j = some (spherical_distance_cpp o lat1 long1 lat2 long2) := by
  obtain ⟨dm, hdm, _, _, hcells⟩ :=
    distance_matrix_cells o facility user (Or.inr (Or.inr ⟨hf, hu⟩))
  refine ⟨dm, hdm, fun i j hi hj => ?_⟩
  obtain ⟨v, hv, lat1, long1, lat2, long2, h1, h2, h3, h4, hvd⟩ := hcells i j hi hj
  exact ⟨lat1, long1, lat2, long2, h1, h2, h3, h4, hvd ▸ hv⟩

/-- Witness of C2: the matrices of the R example of the source file. -/
theorem distance_matrix_entries_witness :
    ∃ dm, distance_matrix_cpp realOps facility_test_cpp user_test_cpp = some dm ∧
      ∀ i j, i < user_test_cpp.nrow → j < facility_test_cpp.nrow →
        ∃ lat1 long1 lat2 long2, user_test_cpp.get? i 0 = some lat1 ∧
          user_test_cpp.get? i 1 = some long1 ∧ facility_test_cpp.get? j 0 = some lat2 ∧
          facility_test_cpp.get? j 1 = some long2 ∧
          dm.get? i j = some (spherical_distance_cpp realOps lat1 long1 lat2 long2) :=
  distance_matrix_entries realOps facility_test_cpp user_test_cpp (by decide) (by decide)

/-- C8: over exact real arithmetic, for matrices with at least two columns and
a cutoff below 0, `binary_matrix_cpp` returns a matrix and each of its cells is
0 (whatever the range of the coordinates). -/
theorem binary_matrix_negative_cutoff (facility user : Matrix ℝ) (distance_cutoff : ℝ)
    (hf : 2 ≤ facility.ncol) (hu : 2 ≤ user.ncol) (hc : distance_cutoff < 0) :
    ∃ bm, binary_matrix_cpp realOps facility user distance_cutoff = some bm ∧
      bm.nrow = user.nrow ∧ bm.ncol = facility.nrow ∧
      ∀ i j, i < user.nrow → j < facility.nrow → bm.get? i j = some 0 := by
  obtain ⟨dm, hdm, _, _, hdist⟩ :=
    distance_matrix_cells realOps facility user (Or.inr (Or.inr ⟨hf, hu⟩))
  obtain ⟨bm, hbm, hbr, hbc, hcells⟩ :=
    binary_matrix_cells realOps facility user distance_cutoff dm hdm
  refine ⟨bm, hbm, hbr, hbc, fun i j hi hj => ?_⟩
  obtain ⟨v, hv, d, hd, hvd⟩ := hcells i j hi hj
  obtain ⟨w, hw, lat1, long1, lat2, long2, _, _, _, _, hwd⟩ := hdist i j hi hj
  have hdw : d = w := Option.some.inj (hd.symm.trans hw)
  have hpos : 0 ≤ d := by
    rw [hdw, hwd]
    exact spherical_distance_nonneg lat1 long1 lat2 long2
  have hle : ¬ d ≤ distance_cutoff := by linarith
  rw [hv, hvd]
  simp [realOps, hle]

/-- Witness of C8: the matrices of the R example of the source file and the
cutoff -1. -/
theorem binary_matrix_negative_cutoff_witness :
    ∃ bm, binary_matrix_cpp realOps facility_test_cpp user_test_cpp (-1) = some bm ∧
      bm.nrow = 10 ∧ bm.ncol = 2 ∧
      ∀ i j, i < 10 → j < 2 → bm.get? i j = some 0 :=
  binary_matrix_negative_cutoff facility_test_cpp user_test_cpp (-1) (by decide) (by decide)
    (by norm_num)

/-! ## Numerical enclosures -/

/-- An enclosure of the sine of a small non-negative angle from an enclosure
of the angle. -/
theorem sin_enclosure {x xl xu : ℝ} (h0 : 0 ≤ xl) (hl : xl ≤ x) (hu : x ≤ xu)
    (h1 : xu ≤ 1) :
    sin_lo xl xu ≤ Real.sin x ∧ Real.sin x ≤ sin_hi xl xu := by
  unfold sin_lo sin_hi
  have hx0 : 0 ≤ x := le_trans h0 hl
  have hb := Real.sin_bound (show |x| ≤ 1 by rw [abs_of_nonneg hx0]; linarith)
  rw [abs_of_nonneg hx0] at hb
  obtain ⟨hb1, hb2⟩ := abs_le.mp hb
  have h3u : x ^ 3 ≤ xu ^ 3 := pow_le_pow_left₀ hx0 hu 3
  have h3l : xl ^ 3 ≤ x ^ 3 := pow_le_pow_left₀ h0 hl 3
  have h4u : x ^ 4 ≤ xu ^ 4 := pow_le_pow_left₀ hx0 hu 4
  constructor <;> linarith

/-- An enclosure of the cosine of a small non-negative angle from an enclosure
of the angle. -/
theorem cos_enclosure {x xl xu : ℝ} (h0 : 0 ≤ xl) (hl : xl ≤ x) (hu : x ≤ xu)
    (h1 : xu ≤ 1) :
    cos_lo xu ≤ Real.cos x ∧ Real.cos x ≤ cos_hi xl xu := by
  unfold cos_lo cos_hi
  have hx0 : 0 ≤ x := le_trans h0 hl
  have hb := Real.cos_bound (show |x| ≤ 1 by rw [abs_of_nonneg hx0]; linarith)
  rw [abs_of_nonneg hx0] at hb
  obtain ⟨hb1, hb2⟩ := abs_le.mp hb
  have h2u : x ^ 2 ≤ xu ^ 2 := pow_le_pow_left₀ hx0 hu 2
  have h2l : xl ^ 2 ≤ x ^ 2 := pow_le_pow_left₀ h0 hl 2
  have h4u : x ^ 4 ≤ xu ^ 4 := pow_le_pow_left₀ hx0 hu 4
  constructor <;> linarith

/-- An enclosure of `s1 ^ 2 + c * s2 ^ 2` from enclosures of its three
non-negative parts. -/
theorem haversine_form_enclosure {s1 s2 c s1l s1u s2l s2u cl cu : ℝ}
    (h1 : 0 ≤ s1l) (h1l : s1l ≤ s1) (h1u : s1 ≤ s1u)
    (h2 : 0 ≤ s2l) (h2l : s2l ≤ s2) (h2u : s2 ≤ s2u)
    (hc : 0 ≤ cl) (hcl : cl ≤ c) (hcu : c ≤ cu) :
    s1l ^ 2 + cl * s2l ^ 2 ≤ s1 ^ 2 + c * s2 ^ 2 ∧
      s1 ^ 2 + c * s2 ^ 2 ≤ s1u ^ 2 + cu * s2u ^ 2 := by
  have a1 : s1l ^ 2 ≤ s1 ^ 2 := pow_le_pow_left₀ h1 h1l 2
  have a2 : s1 ^ 2 ≤ s1u ^ 2 := pow_le_pow_left₀ (le_trans h1 h1l) h1u 2
  have b1 : s2l ^ 2 ≤ s2 ^ 2 := pow_le_pow_left₀ h2 h2l 2
  have b2 : s2 ^ 2 ≤ s2u ^ 2 := pow_le_pow_left₀ (le_trans h2 h2l) h2u 2
  have c1 : cl * s2l ^ 2 ≤ c * s2 ^ 2 := mul_le_mul hcl b1 (sq_nonneg _) (le_trans hc hcl)
  have c2 : c * s2 ^ 2 ≤ cu * s2u ^ 2 :=
    mul_le_mul hcu b2 (sq_nonneg _) (le_trans (le_trans hc hcl) hcu)
  constructor <;> linarith

/-- The value of `a` over the reals in terms of three angles: the half
differences of the latitudes and of the longitudes, taken with either sign,
and the excess of the sum of the latitudes over a right angle. -/
theorem haversine_a_angles (lat1 long1 lat2 long2 dlat dlong : ℝ)
    (hlat : dlat = lat1 - lat2 ∨ dlat = lat2 - lat1)
    (hlong : dlong = long1 - long2 ∨ dlong = long2 - long1) :
    haversine_a realOps lat1 long1 lat2 long2 =
      Real.sin (dlat * Real.pi / 360) ^ 2 +
        (Real.cos (dlat * Real.pi / 180) -
            Real.sin ((lat1 + lat2 - 90) * Real.pi / 180)) / 2 *
          Real.sin (dlong * Real.pi / 360) ^ 2 := by
  have hcc : Real.cos (lat1 * Real.pi / 180) * Real.cos (lat2 * Real.pi / 180) =
      (Real.cos ((lat1 - lat2) * Real.pi / 180) -
        Real.sin ((lat1 + lat2 - 90) * Real.pi / 180)) / 2 := by
    have e1 : (lat1 - lat2) * Real.pi / 180 = lat1 * Real.pi / 180 - lat2 * Real.pi / 180 := by
      ring
    have e2 : (lat1 + lat2 - 90) * Real.pi / 180 =
        (lat1 * Real.pi / 180 + lat2 * Real.pi / 180) - Real.pi / 2 := by ring
    rw [e1, e2, Real.cos_sub, Real.sin_sub_pi_div_two, Real.cos_add]
    ring
  have hsq : ∀ x y d : ℝ, (d = x - y ∨ d = y - x) →
      Real.sin ((y * Real.pi / 180 - x * Real.pi / 180) / 2) ^ 2 =
        Real.sin (d * Real.pi / 360) ^ 2 := by
    intro x y d hd
    rcases hd with h | h
    · have e : (y * Real.pi / 180 - x * Real.pi / 180) / 2 = -(d * Real.pi / 360) := by
        rw [h]; ring
      rw [e, Real.sin_neg, neg_sq]
    · have e : (y * Real.pi / 180 - x * Real.pi / 180) / 2 = d * Real.pi / 360 := by
        rw [h]; ring
      rw [e]
  have hcd : Real.cos (dlat * Real.pi / 180) = Real.cos ((lat1 - lat2) * Real.pi / 180) := by
    rcases hlat with h | h
    · rw [h]
    · have e : dlat * Real.pi / 180 = -((lat1 - lat2) * Real.pi / 180) := by rw [h]; ring
      rw [e, Real.cos_neg]
  rw [haversine_a_real, hcc, hsq lat1 lat2 dlat hlat, hsq long1 long2 dlong hlong, hcd]

/-- A lower bound of the distance from a lower bound of `a`. -/
theorem distance_lower {a θ : ℝ} (h1 : a ≤ 1) (hθ0 : 0 ≤ θ) (hθ1 : θ ≤ 1)
    (h : sin_hi θ θ ^ 2 ≤ a) :
    12742000 * θ ≤ 2 * Real.arcsin (Real.sqrt a) * 6371 * 1000 := by
  have hsin := (sin_enclosure hθ0 le_rfl le_rfl hθ1).2
  have hs0 : 0 ≤ Real.sin θ :=
    Real.sin_nonneg_of_nonneg_of_le_pi hθ0 (by linarith [Real.pi_gt_three])
  have hsq : Real.sin θ ≤ Real.sqrt a := by
    apply Real.le_sqrt_of_sq_le
    calc Real.sin θ ^ 2 ≤ sin_hi θ θ ^ 2 :=
          pow_le_pow_left₀ hs0 hsin 2
      _ ≤ a := h
  have hle : θ ≤ Real.arcsin (Real.sqrt a) := by
    rw [Real.le_arcsin_iff_sin_le ⟨by linarith [Real.pi_gt_three],
      by linarith [Real.pi_gt_three]⟩
      ⟨by linarith [Real.sqrt_nonneg a], Real.sqrt_le_one.mpr h1⟩]
    exact hsq
  linarith

/-- An upper bound of the distance from an upper bound of `a`. -/
theorem distance_upper {a θ : ℝ} (hθ0 : 0 ≤ θ) (hθ1 : θ ≤ 1)
    (hpos : 0 ≤ sin_lo θ θ) (h : a ≤ sin_lo θ θ ^ 2) :
    2 * Real.arcsin (Real.sqrt a) * 6371 * 1000 ≤ 12742000 * θ := by
  have hsin := (sin_enclosure hθ0 le_rfl le_rfl hθ1).1
  have hsq : Real.sqrt a ≤ Real.sin θ := by
    apply Real.sqrt_le_iff.mpr
    refine ⟨le_trans hpos hsin, ?_⟩
    calc a ≤ sin_lo θ θ ^ 2 := h
      _ ≤ Real.sin θ ^ 2 := pow_le_pow_left₀ hpos hsin 2
  have hle : Real.arcsin (Real.sqrt a) ≤ θ := by
    rw [Real.arcsin_le_iff_le_sin ⟨by linarith [Real.sqrt_nonneg a],
      le_trans hsq (Real.sin_le_one θ)⟩
      ⟨by linarith [Real.pi_gt_three], by linarith [Real.pi_gt_three]⟩]
    exact hsq
  linarith

/-- An enclosure of the distance over the reals, from enclosures of the three
angles of `haversine_a_angles` and two polynomial inequalities between
rational numbers. -/
theorem spherical_distance_enclosure (lat1 long1 lat2 long2 dlat dlong : ℝ)
    (hlat : dlat = lat1 - lat2 ∨ dlat = lat2 - lat1)
    (hlong : dlong = long1 - long2 ∨ dlong = long2 - long1)
    (ul uu wl wu el eu θl θu : ℝ)
    (hul : 0 ≤ ul) (hu1 : ul ≤ dlat * Real.pi / 360) (hu2 : dlat * Real.pi / 360 ≤ uu)
    (huu : uu ≤ 1 / 2)
    (hwl : 0 ≤ wl) (hw1 : wl ≤ dlong * Real.pi / 360) (hw2 : dlong * Real.pi / 360 ≤ wu)
    (hwu : wu ≤ 1)
    (hel : 0 ≤ el) (he1 : el ≤ (lat1 + lat2 - 90) * Real.pi / 180)
    (he2 : (lat1 + lat2 - 90) * Real.pi / 180 ≤ eu) (heu : eu ≤ 1)
    (hs1 : 0 ≤ sin_lo ul uu) (hs2 : 0 ≤ sin_lo wl wu)
    (hc : 0 ≤ (cos_lo (2 * uu) - sin_hi el eu) / 2)
    (hθl0 : 0 ≤ θl) (hθl1 : θl ≤ 1) (hθu0 : 0 ≤ θu) (hθu1 : θu ≤ 1)
    (hθpos : 0 ≤ sin_lo θu θu)
    (hlow : sin_hi θl θl ^ 2 ≤
      sin_lo ul uu ^ 2 + (cos_lo (2 * uu) - sin_hi el eu) / 2 * sin_lo wl wu ^ 2)
    (hupp : sin_hi ul uu ^ 2 +
      (cos_hi (2 * ul) (2 * uu) - sin_lo el eu) / 2 * sin_hi wl wu ^ 2 ≤ sin_lo θu θu ^ 2) :
    12742000 * θl ≤ spherical_distance_cpp realOps lat1 long1 lat2 long2 ∧
      spherical_distance_cpp realOps lat1 long1 lat2 long2 ≤ 12742000 * θu := by
  obtain ⟨ha0, ha1⟩ := haversine_a_unit lat1 long1 lat2 long2
  have hsu := sin_enclosure hul hu1 hu2 (by linarith)
  have hsw := sin_enclosure hwl hw1 hw2 hwu
  have hse := sin_enclosure hel he1 he2 heu
  have hcv := @cos_enclosure (dlat * Real.pi / 180) (2 * ul) (2 * uu)
    (by linarith) (by linarith) (by linarith) (by linarith)
  have hform := haversine_form_enclosure
    (c := (Real.cos (dlat * Real.pi / 180) -
      Real.sin ((lat1 + lat2 - 90) * Real.pi / 180)) / 2)
    hs1 hsu.1 hsu.2 hs2 hsw.1 hsw.2 hc
    (show (cos_lo (2 * uu) - sin_hi el eu) / 2 ≤ _ by linarith [hcv.1, hse.2])
    (show _ ≤ (cos_hi (2 * ul) (2 * uu) - sin_lo el eu) / 2 by linarith [hcv.2, hse.1])
  rw [← haversine_a_angles lat1 long1 lat2 long2 dlat dlong hlat hlong] at hform
  rw [spherical_distance_real]
  exact ⟨distance_lower ha1 hθl0 hθl1 (le_trans hlow hform.1),
    distance_upper hθu0 hθu1 hθpos (le_trans hform.2 hupp)⟩

/-- The distance of the end-to-end scenario of the specification lies
between 21250.12 and 21250.13 metres. -/
theorem scenario_distance_enclosure :
    21250.12 ≤ spherical_distance_cpp realOps 46.19616 8.731278 46.16850 9.004392 ∧
      spherical_distance_cpp realOps 46.19616 8.731278 46.16850 9.004392 ≤ 21250.13 := by
  have hπl := Real.pi_gt_d20
  have hπu := Real.pi_lt_d20
  have h := spherical_distance_enclosure 46.19616 8.731278 46.16850 9.004392
    0.02766 0.273114 (Or.inl (by norm_num)) (Or.inr (by norm_num))
    (0.02766 * 3.14159265358979323846 / 360) (0.02766 * 3.14159265358979323847 / 360)
    (0.273114 * 3.14159265358979323846 / 360) (0.273114 * 3.14159265358979323847 / 360)
    (2.36466 * 3.14159265358979323846 / 180) (2.36466 * 3.14159265358979323847 / 180)
    (21250.12 / 12742000) (21250.13 / 12742000)
    (by norm_num) (by linarith) (by linarith) (by norm_num)
    (by norm_num) (by linarith) (by linarith) (by norm_num)
    (by norm_num) (by linarith) (by linarith) (by norm_num)
    (by norm_num [sin_lo]) (by norm_num [sin_lo])
    (by norm_num [sin_hi, cos_lo])
    (by norm_num) (by norm_num) (by norm_num) (by norm_num)
    (by norm_num [sin_lo])
    (by norm_num [sin_lo, sin_hi, cos_lo])
    (by norm_num [sin_lo, sin_hi, cos_hi])
  have e1 : (12742000 : ℝ) * (21250.12 / 12742000) = 21250.12 := by norm_num
  have e2 : (12742000 : ℝ) * (21250.13 / 12742000) = 21250.13 := by norm_num
  rw [e1, e2] at h
  exact h

/-- The distance between the two points of the comment at lines 162-165 of
the source lies between 22669.88 and 22669.90 metres. -/
theorem comment_distance_enclosure :
    22669.88 ≤ spherical_distance_cpp realOps 46.19616 9.027957 46.00018 8.946929 ∧
      spherical_distance_cpp realOps 46.19616 9.027957 46.00018 8.946929 ≤ 22669.90 := by
  have hπl := Real.pi_gt_d20
  have hπu := Real.pi_lt_d20
  have h := spherical_distance_enclosure 46.19616 9.027957 46.00018 8.946929
    0.19598 0.081028 (Or.inl (by norm_num)) (Or.inl (by norm_num))
    (0.19598 * 3.14159265358979323846 / 360) (0.19598 * 3.14159265358979323847 / 360)
    (0.081028 * 3.14159265358979323846 / 360) (0.081028 * 3.14159265358979323847 / 360)
    (2.19634 * 3.14159265358979323846 / 180) (2.19634 * 3.14159265358979323847 / 180)
    (22669.88 / 12742000) (22669.90 / 12742000)
    (by norm_num) (by linarith) (by linarith) (by norm_num)
    (by norm_num) (by linarith) (by linarith) (by norm_num)
    (by norm_num) (by linarith) (by linarith) (by norm_num)
    (by norm_num [sin_lo]) (by norm_num [sin_lo])
    (by norm_num [sin_hi, cos_lo])
    (by norm_num) (by norm_num) (by norm_num) (by norm_num)
    (by norm_num [sin_lo])
    (by norm_num [sin_lo, sin_hi, cos_lo])
    (by norm_num [sin_lo, sin_hi, cos_hi])
  have e1 : (12742000 : ℝ) * (22669.88 / 12742000) = 22669.88 := by norm_num
  have e2 : (12742000 : ℝ) * (22669.90 / 12742000) = 22669.90 := by norm_num
  rw [e1, e2] at h
  exact h

/-! ## Values of the distance -/

/-- Counterexample to C11: the distance of the scenario is above 21250
metres, outside the band of 50 metres around 21200. -/
theorem scenario_distance_outside_band :
    21250 < spherical_distance_cpp realOps 46.19616 8.731278 46.16850 9.004392 ∧
      ¬ (21150 ≤ spherical_distance_cpp realOps 46.19616 8.731278 46.16850 9.004392 ∧
        spherical_distance_cpp realOps 46.19616 8.731278 46.16850 9.004392 ≤ 21250) := by
  have h := scenario_distance_enclosure.1
  constructor
  · linarith
  · intro hband
    linarith [hband.2]

/-- C11, amended: over exact real arithmetic the distance of the scenario lies
between 21250.12 and 21250.13 metres, and the distance matrix of the single
facility and the single user is the 1 by 1 matrix that holds this value. -/
theorem scenario_distance_value :
    21250.12 ≤ spherical_distance_cpp realOps 46.19616 8.731278 46.16850 9.004392 ∧
      spherical_distance_cpp realOps 46.19616 8.731278 46.16850 9.004392 ≤ 21250.13 ∧
      spherical_distance_cpp realOps 46.16850 9.004392 46.19616 8.731278 =
        spherical_distance_cpp realOps 46.19616 8.731278 46.16850 9.004392 ∧
      distance_matrix_cpp realOps (one_point 46.19616 8.731278)
          (one_point 46.16850 9.004392) =
        some (Matrix.mk 1 1
          [spherical_distance_cpp realOps 46.16850 9.004392 46.19616 8.731278] rfl) := by
  refine ⟨scenario_distance_enclosure.1, scenario_distance_enclosure.2, ?_, rfl⟩
  rw [spherical_distance_eq, spherical_distance_eq]
  congr 1
  rw [haversine_a_angles 46.16850 9.004392 46.19616 8.731278 0.02766 0.273114
      (Or.inr (by norm_num)) (Or.inl (by norm_num)),
    haversine_a_angles 46.19616 8.731278 46.16850 9.004392 0.02766 0.273114
      (Or.inl (by norm_num)) (Or.inr (by norm_num))]
  norm_num

/-- Counterexample to C17: the distance between the two points of the comment
is below 22670 metres, more than 7000 metres away from 30368.89. -/
theorem comment_distance_differs :
    spherical_distance_cpp realOps 46.19616 9.027957 46.00018 8.946929 < 22670 ∧
      ¬ |spherical_distance_cpp realOps 46.19616 9.027957 46.00018 8.946929 - 30368.89|
        ≤ 0.01 := by
  have h := comment_distance_enclosure.2
  constructor
  · linarith
  · intro habs
    have := (abs_le.mp habs).1
    linarith

/-- C17, amended: over exact real arithmetic the distance between the two
points of the comment is 22669.89 metres to two decimals (within 0.01 m). -/
theorem comment_distance_value :
    |spherical_distance_cpp realOps 46.19616 9.027957 46.00018 8.946929 - 22669.89|
      ≤ 0.01 := by
  obtain ⟨h1, h2⟩ := comment_distance_enclosure
  rw [abs_le]
  constructor <;> linarith

/-- C14: over exact real arithmetic the value `a` that `spherical_distance_cpp`
computes at line 44 is `sin^2((p2 - p1)/2) + cos(p1) * cos(p2) *
sin^2((l2 - l1)/2)` for the radian values of its arguments, and it lies in
`[0, 1]` for all real arguments. -/
theorem haversine_a_in_unit_interval (lat1 long1 lat2 long2 : ℝ) :
    spherical_distance_cpp realOps lat1 long1 lat2 long2 =
        distance_of_a realOps (haversine_a realOps lat1 long1 lat2 long2) ∧
      haversine_a realOps lat1 long1 lat2 long2 =
        Real.sin ((deg2rad_cpp realOps lat2 - deg2rad_cpp realOps lat1) / 2) ^ 2 +
          Real.cos (deg2rad_cpp realOps lat1) * Real.cos (deg2rad_cpp realOps lat2) *
            Real.sin ((deg2rad_cpp realOps long2 - deg2rad_cpp realOps long1) / 2) ^ 2 ∧
      0 ≤ haversine_a realOps lat1 long1 lat2 long2 ∧
      haversine_a realOps lat1 long1 lat2 long2 ≤ 1 := by
  refine ⟨rfl, ?_, haversine_a_unit lat1 long1 lat2 long2⟩
  rw [haversine_a_real, deg2rad_real, deg2rad_real, deg2rad_real, deg2rad_real]

/-- Column 1 of a matrix with fewer than two columns lies outside the
storage. -/
theorem Matrix.get?_col_one_none {α : Type} (m : Matrix α) (i : Nat) (h : m.ncol < 2) :
    m.get? i 1 = none := by
  have hlen : m.data.length ≤ m.offset i 1 := by
    rw [m.size_eq]
    unfold Matrix.offset
    have : m.nrow * m.ncol ≤ m.nrow * 1 := Nat.mul_le_mul_left _ (by omega)
    omega
  simp only [Matrix.get?]
  exact List.getElem?_eq_none hlen

/-- The first pass of the inner loop fails when a matrix has fewer than two
columns. -/
theorem distance_cell_none {D : Type} (o : DoubleOps D) (facility user : Matrix D)
    (i j : Nat) (m : Matrix D) (h : facility.ncol < 2 ∨ user.ncol < 2) :
    distance_cell o facility user i j m = none := by
  unfold distance_cell
  by_cases hu : user.ncol < 2
  · cases h0 : user.get? i 0 <;> simp [user.get?_col_one_none i hu]
  · have hf : facility.ncol < 2 := by
      rcases h with h | h
      · exact h
      · exact absurd h hu
    cases h0 : user.get? i 0 <;> cases h1 : user.get? i 1 <;>
      cases h2 : facility.get? j 0 <;> simp [facility.get?_col_one_none j hf]

/-- With at least one user, at least one facility and a matrix of fewer than
two columns, `distance_matrix_cpp` returns no matrix. -/
theorem distance_matrix_none {D : Type} (o : DoubleOps D) (facility user : Matrix D)
    (hu : 0 < user.nrow) (hf : 0 < facility.nrow)
    (h : facility.ncol < 2 ∨ user.ncol < 2) :
    distance_matrix_cpp o facility user = none := by
  unfold distance_matrix_cpp
  obtain ⟨a, ha⟩ := Nat.exists_eq_succ_of_ne_zero (Nat.pos_iff_ne_zero.mp hu)
  obtain ⟨b, hb⟩ := Nat.exists_eq_succ_of_ne_zero (Nat.pos_iff_ne_zero.mp hf)
  simp only [ha, hb, List.range_succ_eq_map, List.foldlM_cons,
    distance_cell_none o facility user 0 0 _ h, Option.bind_eq_bind, Option.none_bind]

/-- The condition under which every read of the loops is inside the storage:
a matrix without rows, or two columns in both matrices. -/
theorem distance_matrix_defined_iff {D : Type} (o : DoubleOps D)
    (facility user : Matrix D) :
    (∃ dm, distance_matrix_cpp o facility user = some dm) ↔
      (user.nrow = 0 ∨ facility.nrow = 0 ∨ (2 ≤ facility.ncol ∧ 2 ≤ user.ncol)) := by
  constructor
  · rintro ⟨dm, hdm⟩
    by_contra hH
    have hnone := distance_matrix_none o facility user (by omega) (by omega) (by omega)
    rw [hnone] at hdm
    cases hdm
  · intro H
    obtain ⟨dm, hdm, _⟩ := distance_matrix_cells o facility user H
    exact ⟨dm, hdm⟩

/-- `binary_matrix_cpp` returns a matrix exactly when `distance_matrix_cpp`
does. -/
theorem binary_matrix_defined_iff {D : Type} (o : DoubleOps D)
    (facility user : Matrix D) (distance_cutoff : D) :
    (∃ bm, binary_matrix_cpp o facility user distance_cutoff = some bm) ↔
      ∃ dm, distance_matrix_cpp o facility user = some dm := by
  constructor
  · rintro ⟨bm, hbm⟩
    cases hd : distance_matrix_cpp o facility user with
    | none =>
      simp [binary_matrix_cpp, hd] at hbm
    | some dm => exact ⟨dm, rfl⟩
  · rintro ⟨dm, hdm⟩
    obtain ⟨bm, hbm, _⟩ := binary_matrix_cells o facility user distance_cutoff dm hdm
    exact ⟨bm, hbm⟩

/-- Two loops whose passes agree on every element of the list give the same
result. -/
theorem foldlM_congr {σ : Type} (f g : σ → Nat → Option σ) (l : List Nat)
    (h : ∀ k, k ∈ l → ∀ s, f s k = g s k) : ∀ s, l.foldlM f s = l.foldlM g s := by
  induction l with
  | nil => intro s; rfl
  | cons k l ih =>
    intro s
    rw [List.foldlM_cons, List.foldlM_cons, h k (List.mem_cons_self k l) s]
    cases g s k with
    | none => rfl
    | some t => exact ih (fun k hk s => h k (List.mem_cons_of_mem _ hk) s) t

/-- Matrices with the same row counts that agree on columns 0 and 1 of every
row give the same result of `distance_matrix_cpp` and of `binary_matrix_cpp`,
defined or not. -/
theorem builders_congr {D : Type} (o : DoubleOps D) (facility facility2 user user2 : Matrix D)
    (hfr : facility.nrow = facility2.nrow) (hur : user.nrow = user2.nrow)
    (hf : ∀ j, j < facility.nrow →
      facility.get? j 0 = facility2.get? j 0 ∧ facility.get? j 1 = facility2.get? j 1)
    (hu : ∀ i, i < user.nrow →
      user.get? i 0 = user2.get? i 0 ∧ user.get? i 1 = user2.get? i 1) :
    distance_matrix_cpp o facility user = distance_matrix_cpp o facility2 user2 ∧
      ∀ distance_cutoff, binary_matrix_cpp o facility user distance_cutoff =
        binary_matrix_cpp o facility2 user2 distance_cutoff := by
  have hd : distance_matrix_cpp o facility user = distance_matrix_cpp o facility2 user2 := by
    unfold distance_matrix_cpp
    rw [← hfr, ← hur]
    apply foldlM_congr
    intro i hi s
    apply foldlM_congr
    intro j hj t
    unfold distance_cell
    rw [(hu i (List.mem_range.mp hi)).1, (hu i (List.mem_range.mp hi)).2,
      (hf j (List.mem_range.mp hj)).1, (hf j (List.mem_range.mp hj)).2]
  refine ⟨hd, fun distance_cutoff => ?_⟩
  unfold binary_matrix_cpp
  rw [← hfr, ← hur, hd]

/-- C12: when two user rows `i` and `k` hold the same values in columns 0 and
1 and `distance_matrix_cpp` returns `dm`, rows `i` and `k` of `dm` are equal
cell by cell, `binary_matrix_cpp` returns a matrix, and rows `i` and `k` of
that matrix are equal cell by cell. -/
theorem identical_user_rows {D : Type} (o : DoubleOps D) (facility user : Matrix D)
    (distance_cutoff : D) (dm : Matrix D) (i k : Nat)
    (hi : i < user.nrow) (hk : k < user.nrow)
    (hlat : user.get? i 0 = user.get? k 0) (hlong : user.get? i 1 = user.get? k 1)
    (hd : distance_matrix_cpp o facility user = some dm) :
    ∃ bm, binary_matrix_cpp o facility user distance_cutoff = some bm ∧
      ∀ j, j < facility.nrow →
        (∃ v, dm.get? i j = some v ∧ dm.get? k j = some v) ∧
          ∃ b, bm.get? i j = some b ∧ bm.get? k j = some b := by
  have H := (distance_matrix_defined_iff o facility user).mp ⟨dm, hd⟩
  obtain ⟨dm2, hdm2, _, _, hcells⟩ := distance_matrix_cells o facility user H
  have hsame : dm2 = dm := Option.some.inj (hdm2.symm.trans hd)
  subst hsame
  obtain ⟨bm, hbm, _, _, hbin⟩ :=
    binary_matrix_cells o facility user distance_cutoff dm2 hd
  have hrow : ∀ j, j < facility.nrow → ∃ v, dm2.get? i j = some v ∧ dm2.get? k j = some v := by
    intro j hj
    obtain ⟨v, hv, a1, b1, c1, d1, ha1, hb1, hc1, hd1, hv1⟩ := hcells i j hi hj
    obtain ⟨w, hw, a2, b2, c2, d2, ha2, hb2, hc2, hd2, hw2⟩ := hcells k j hk hj
    have ea : a1 = a2 := Option.some.inj (ha1.symm.trans (hlat.trans ha2))
    have eb : b1 = b2 := Option.some.inj (hb1.symm.trans (hlong.trans hb2))
    have ec : c1 = c2 := Option.some.inj (hc1.symm.trans hc2)
    have ed : d1 = d2 := Option.some.inj (hd1.symm.trans hd2)
    refine ⟨v, hv, ?_⟩
    rw [hw, hw2, hv1, ea, eb, ec, ed]
  refine ⟨bm, hbm, fun j hj => ⟨hrow j hj, ?_⟩⟩
  obtain ⟨v, hvi, hvk⟩ := hrow j hj
  obtain ⟨b1, hb1, d1, hd1, e1⟩ := hbin i j hi hj
  obtain ⟨b2, hb2, d2, hd2, e2⟩ := hbin k j hk hj
  have ed1 : d1 = v := Option.some.inj (hd1.symm.trans hvi)
  have ed2 : d2 = v := Option.some.inj (hd2.symm.trans hvk)
  refine ⟨b1, hb1, ?_⟩
  rw [hb2, e2, e1, ed1, ed2]

/-- Witness of C12: users 2 and 3 of the R example of the source file hold
the same point. -/
theorem identical_user_rows_witness :
    ∃ dm bm, distance_matrix_cpp realOps facility_test_cpp user_test_cpp = some dm ∧
      binary_matrix_cpp realOps facility_test_cpp user_test_cpp 10000 = some bm ∧
      ∀ j, j < 2 →
        (∃ v, dm.get? 1 j = some v ∧ dm.get? 2 j = some v) ∧
          ∃ b, bm.get? 1 j = some b ∧ bm.get? 2 j = some b := by
  obtain ⟨dm, hdm, _⟩ := distance_matrix_cells realOps facility_test_cpp user_test_cpp
    (Or.inr (Or.inr ⟨by decide, by decide⟩))
  obtain ⟨bm, hbm, hrows⟩ := identical_user_rows realOps facility_test_cpp user_test_cpp
    10000 dm 1 2 (by decide) (by decide) rfl rfl hdm
  exact ⟨dm, bm, hdm, hbm, hrows⟩

/-- C15: for two facility matrices with the same number of rows that agree on
columns 0 and 1, and two user matrices that do likewise, the first pair with
at least two columns each, `distance_matrix_cpp` returns the same matrix on
both pairs, and so does `binary_matrix_cpp` for every cutoff. -/
theorem first_two_columns_only {D : Type} (o : DoubleOps D)
    (facility facility2 user user2 : Matrix D)
    (hfr : facility.nrow = facility2.nrow) (hur : user.nrow = user2.nrow)
    (hf : ∀ j, j < facility.nrow →
      facility.get? j 0 = facility2.get? j 0 ∧ facility.get? j 1 = facility2.get? j 1)
    (hu : ∀ i, i < user.nrow →
      user.get? i 0 = user2.get? i 0 ∧ user.get? i 1 = user2.get? i 1)
    (hfc : 2 ≤ facility.ncol) (huc : 2 ≤ user.ncol) :
    ∃ dm, distance_matrix_cpp o facility user = some dm ∧
      distance_matrix_cpp o facility2 user2 = some dm ∧
      ∀ distance_cutoff, ∃ bm,
        binary_matrix_cpp o facility user distance_cutoff = some bm ∧
          binary_matrix_cpp o facility2 user2 distance_cutoff = some bm := by
  obtain ⟨hd, hb⟩ := builders_congr o facility facility2 user user2 hfr hur hf hu
  obtain ⟨dm, hdm, _⟩ :=
    distance_matrix_cells o facility user (Or.inr (Or.inr ⟨hfc, huc⟩))
  refine ⟨dm, hdm, hd ▸ hdm, fun distance_cutoff => ?_⟩
  obtain ⟨bm, hbm, _⟩ := binary_matrix_cells o facility user distance_cutoff dm hdm
  exact ⟨bm, hbm, hb distance_cutoff ▸ hbm⟩

/-- Witness of C15: the matrices of the R example of the source file and the
same matrices without their identifier and key columns. -/
theorem first_two_columns_only_witness :
    ∃ dm, distance_matrix_cpp realOps facility_test_cpp user_test_cpp = some dm ∧
      distance_matrix_cpp realOps facility_test_points user_test_points = some dm ∧
      ∀ distance_cutoff, ∃ bm,
        binary_matrix_cpp realOps facility_test_cpp user_test_cpp distance_cutoff = some bm ∧
          binary_matrix_cpp realOps facility_test_points user_test_points distance_cutoff
            = some bm :=
  first_two_columns_only realOps facility_test_cpp facility_test_points
    user_test_cpp user_test_points rfl rfl
    (fun j hj => by
      have hj2 : j < 2 := hj
      interval_cases j <;> exact ⟨rfl, rfl⟩)
    (fun i hi => by
      have hi2 : i < 10 := hi
      interval_cases i <;> exact ⟨rfl, rfl⟩)
    (by decide) (by decide)

/-- The value of `a` is 0 for two points at latitude 90. -/
theorem haversine_a_pole (long1 long2 : ℝ) :
    haversine_a realOps 90 long1 90 long2 = 0 := by
  rw [haversine_a_real]
  have e : (90 : ℝ) * Real.pi / 180 = Real.pi / 2 := by ring
  rw [e]
  simp

/-- Counterexample to C16: for the user `(90, 0)` and the facility `(90, 90)`
the cell of the distance matrix is `spherical_distance_cpp(90, 0, 90, 90)`,
which is 0 (both points are the pole), while the distance with the two
columns exchanged, `spherical_distance_cpp(0, 90, 90, 90)`, is a quarter of
the circumference. -/
theorem column_order_counterexample :
    distance_matrix_cpp realOps (one_point 90 90) (one_point 90 0) =
        some (Matrix.mk 1 1 [spherical_distance_cpp realOps 90 0 90 90] rfl) ∧
      spherical_distance_cpp realOps 90 0 90 90 = 0 ∧
      spherical_distance_cpp realOps 0 90 90 90 = Real.pi / 2 * 6371000 ∧
      spherical_distance_cpp realOps 90 0 90 90 ≠
        spherical_distance_cpp realOps 0 90 90 90 := by
  have h1 : spherical_distance_cpp realOps 90 0 90 90 = 0 := by
    rw [spherical_distance_real, haversine_a_pole]
    simp
  have ha : haversine_a realOps 0 90 90 90 = 1 / 2 := by
    rw [haversine_a_real]
    have e : ((90 : ℝ) * Real.pi / 180 - 0 * Real.pi / 180) / 2 = Real.pi / 4 := by ring
    rw [e]
    simp only [sub_self, zero_div, Real.sin_zero, zero_mul, Real.cos_zero]
    rw [Real.sin_pi_div_four]
    have h2 : Real.sqrt 2 ^ 2 = 2 := Real.sq_sqrt (by norm_num)
    have : (Real.sqrt 2 / 2) ^ 2 = 1 / 2 := by rw [div_pow, h2]; norm_num
    rw [this]
    norm_num
  have hsq : Real.sqrt (1 / 2) = Real.sin (Real.pi / 4) := by
    rw [Real.sin_pi_div_four]
    rw [Real.sqrt_eq_iff_mul_self_eq (by norm_num) (by positivity)]
    have h2 : Real.sqrt 2 * Real.sqrt 2 = 2 := Real.mul_self_sqrt (by norm_num)
    rw [div_mul_div_comm, h2]
    norm_num
  have h2 : spherical_distance_cpp realOps 0 90 90 90 = Real.pi / 2 * 6371000 := by
    rw [spherical_distance_real, ha, hsq,
      Real.arcsin_sin (by linarith [Real.pi_pos]) (by linarith [Real.pi_pos])]
    ring
  refine ⟨rfl, h1, h2, ?_⟩
  rw [h1, h2]
  have := Real.pi_pos
  intro h
  linarith

/-- C16, amended: whenever `distance_matrix_cpp` returns `dm`, its cell
`(i, j)` is `spherical_distance_cpp(lat1 = user(i,0), long1 = user(i,1),
lat2 = facility(j,0), long2 = facility(j,1))`: the first column is read as
the latitude and the second as the longitude. -/
theorem distance_matrix_column_order {D : Type} (o : DoubleOps D)
    (facility user dm : Matrix D) (hd : distance_matrix_cpp o facility user = some dm) :
    ∀ i j, i < user.nrow → j < facility.nrow →
      ∃ lat1 long1 lat2 long2, user.get? i 0 = some lat1 ∧
        user.get? i 1 = some long1 ∧ facility.get? j 0 = some lat2 ∧
        facility.get? j 1 = some long2 ∧
        dm.get? i j = some (spherical_distance_cpp o lat1 long1 lat2 long2) := by
  have H := (distance_matrix_defined_iff o facility user).mp ⟨dm, hd⟩
  obtain ⟨dm2, hdm2, _, _, hcells⟩ := distance_matrix_cells o facility user H
  have hsame : dm2 = dm := Option.some.inj (hdm2.symm.trans hd)
  subst hsame
  intro i j hi hj
  obtain ⟨v, hv, lat1, long1, lat2, long2, h1, h2, h3, h4, hvd⟩ := hcells i j hi hj
  exact ⟨lat1, long1, lat2, long2, h1, h2, h3, h4, hvd ▸ hv⟩

/-- Witness of C16, amended: the user `(90, 0)` and the facility `(90, 90)`,
at the single cell of the distance matrix. -/
theorem distance_matrix_column_order_witness :
    ∃ lat1 long1 lat2 long2, (one_point 90 0).get? 0 0 = some lat1 ∧
      (one_point 90 0).get? 0 1 = some long1 ∧ (one_point 90 90).get? 0 0 = some lat2 ∧
      (one_point 90 90).get? 0 1 = some long2 ∧
      (Matrix.mk 1 1 [spherical_distance_cpp realOps 90 0 90 90] rfl).get? 0 0 =
        some (spherical_distance_cpp realOps lat1 long1 lat2 long2) :=
  distance_matrix_column_order realOps (one_point 90 90) (one_point 90 0)
    (Matrix.mk 1 1 [spherical_distance_cpp realOps 90 0 90 90] rfl) rfl 0 0
    (by decide) (by decide)

/-- C18: when `<=` is transitive and `c1 <= c2`, and `distance_matrix_cpp`
returns a matrix, `binary_matrix_cpp` returns a matrix for both cutoffs and
every cell at `c1` is at most the same cell at `c2`. -/
theorem coverage_monotone {D : Type} (o : DoubleOps D)
    (htrans : ∀ x y z, o.le x y = true → o.le y z = true → o.le x z = true)
    (facility user : Matrix D) (c1 c2 : D) (h12 : o.le c1 c2 = true)
    (dm : Matrix D) (hd : distance_matrix_cpp o facility user = some dm) :
    ∃ b1 b2, binary_matrix_cpp o facility user c1 = some b1 ∧
      binary_matrix_cpp o facility user c2 = some b2 ∧
      ∀ i j, i < user.nrow → j < facility.nrow →
        ∃ v1 v2, b1.get? i j = some v1 ∧ b2.get? i j = some v2 ∧ v1 ≤ v2 := by
  obtain ⟨b1, hb1, _, _, hc1⟩ := binary_matrix_cells o facility user c1 dm hd
  obtain ⟨b2, hb2, _, _, hc2⟩ := binary_matrix_cells o facility user c2 dm hd
  refine ⟨b1, b2, hb1, hb2, fun i j hi hj => ?_⟩
  obtain ⟨v1, hv1, d1, hd1, e1⟩ := hc1 i j hi hj
  obtain ⟨v2, hv2, d2, hd2, e2⟩ := hc2 i j hi hj
  have ed : d1 = d2 := Option.some.inj (hd1.symm.trans hd2)
  subst ed
  refine ⟨v1, v2, hv1, hv2, ?_⟩
  rw [e1, e2]
  by_cases h1 : o.le d1 c1 = true
  · have h2 : o.le d1 c2 = true := htrans d1 c1 c2 h1 h12
    simp [h1, h2]
  · by_cases h2 : o.le d1 c2 = true <;> simp [h1, h2]

/-- Witness of C18: exact real arithmetic, one facility, one user, the
cutoffs 100 and 30000. -/
theorem coverage_monotone_witness :
    ∃ b1 b2, binary_matrix_cpp realOps (one_point 46.19616 8.731278)
        (one_point 46.16850 9.004392) 100 = some b1 ∧
      binary_matrix_cpp realOps (one_point 46.19616 8.731278)
        (one_point 46.16850 9.004392) 30000 = some b2 ∧
      ∀ i j, i < 1 → j < 1 →
        ∃ v1 v2, b1.get? i j = some v1 ∧ b2.get? i j = some v2 ∧ v1 ≤ v2 :=
  coverage_monotone realOps
    (fun x y z hxy hyz => by
      simp only [realOps, decide_eq_true_eq] at hxy hyz ⊢
      exact le_trans hxy hyz)
    (one_point 46.19616 8.731278) (one_point 46.16850 9.004392) 100 30000
    (by simp only [realOps, decide_eq_true_eq]; norm_num)
    (Matrix.mk 1 1 [spherical_distance_cpp realOps 46.16850 9.004392 46.19616 8.731278] rfl)
    rfl

/-! ## Accesses of the two builders -/

/-- Two nested counted loops in which every pass of the inner body succeeds
and carries an invariant indexed by the position `(k, l)`. -/
theorem nested_loops_inv {σ : Type} (n1 n2 : Nat) (cell : Nat → Nat → σ → Option σ)
    (I : Nat → Nat → σ → Prop) (s0 : σ) (h0 : I 0 0 s0)
    (hrow : ∀ k s, k < n1 → I k n2 s → I (k + 1) 0 s)
    (hcell : ∀ k l s, k < n1 → l < n2 → I k l s → ∃ t, cell k l s = some t ∧ I k (l + 1) t) :
    ∃ s, (List.range n1).foldlM
        (fun s i => (List.range n2).foldlM (fun s j => cell i j s) s) s0 = some s ∧
      I n1 0 s := by
  refine foldlM_range_inv _ (fun k s => I k 0 s) n1 s0 h0 ?_
  intro k s hk hI
  obtain ⟨t, ht, hIt⟩ := foldlM_range_inv (fun s j => cell k j s) (fun l s => I k l s) n2 s hI
    (fun l s hl hs => hcell k l s hk hl hs)
  exact ⟨t, ht, hrow k t hk hIt⟩

/-- Forgetting a component of the state commutes with a loop when it commutes
with every pass. -/
theorem foldlM_erase {σ τ : Type} (p : σ → τ) (f : σ → Nat → Option σ)
    (g : τ → Nat → Option τ) (h : ∀ s k, (f s k).map p = g (p s) k) (l : List Nat) :
    ∀ s, (l.foldlM f s).map p = l.foldlM g (p s) := by
  induction l with
  | nil => intro s; rfl
  | cons k l ih =>
    intro s
    rw [List.foldlM_cons, List.foldlM_cons, ← h s k]
    cases f s k with
    | none => rfl
    | some t => exact ih t

/-- The recorded run of `distance_matrix_cpp` computes the same matrix. -/
theorem distance_matrix_traced_erase {D : Type} (o : DoubleOps D)
    (facility user : Matrix D) :
    (distance_matrix_traced o facility user).map Prod.fst =
      distance_matrix_cpp o facility user := by
  unfold distance_matrix_traced distance_matrix_cpp
  refine foldlM_erase Prod.fst _ _ ?_ _ _
  intro s i
  refine foldlM_erase Prod.fst _ _ ?_ _ _
  intro s j
  unfold distance_cell_traced distance_cell
  cases user.get? i 0 <;> cases user.get? i 1 <;> cases facility.get? j 0 <;>
    cases facility.get? j 1 <;> try rfl
  simp only [Option.bind_eq_bind, Option.some_bind]
  cases s.1.set? i j _ <;> rfl

/-- The recorded run of `binary_matrix_cpp` computes the same matrix. -/
theorem binary_matrix_traced_erase {D : Type} (o : DoubleOps D)
    (facility user : Matrix D) (distance_cutoff : D) :
    (binary_matrix_traced o facility user distance_cutoff).map Prod.fst =
      binary_matrix_cpp o facility user distance_cutoff := by
  have hd := distance_matrix_traced_erase o facility user
  unfold binary_matrix_traced binary_matrix_cpp
  cases ht : distance_matrix_traced o facility user with
  | none =>
    rw [ht] at hd
    rw [← hd]
    rfl
  | some traced =>
    rw [ht] at hd
    rw [← hd]
    simp only [Option.bind_eq_bind, Option.some_bind, Option.map_some']
    refine foldlM_erase Prod.fst _ _ ?_ _ _
    intro s i
    refine foldlM_erase Prod.fst _ _ ?_ _ _
    intro s j
    unfold binary_cell_traced binary_cell
    cases traced.1.get? i j with
    | none => rfl
    | some d =>
      simp only [Option.bind_eq_bind, Option.some_bind]
      by_cases h1 : o.le d distance_cutoff = true
      · simp only [h1, if_true]
        cases s.1.set? i j 1 <;> rfl
      · simp only [h1, if_false]
        by_cases h2 : o.gt d distance_cutoff = true
        · simp only [h2, if_true]
          cases s.1.set? i j 0 <;> rfl
        · simp only [h2, if_false]
          rfl


/-- Number of writes to `dist_mat(i, j)` among the accesses of one pass of
the loop body of `distance_matrix_cpp` at `(k, l)`. -/
theorem count_distance_pass (i j k l : Nat) :
    List.count (Access.mk Target.dist_mat true i j)
      [Access.mk Target.user false k 0, Access.mk Target.user false k 1,
        Access.mk Target.facility false l 0, Access.mk Target.facility false l 1,
        Access.mk Target.dist_mat true k l] = if i = k ∧ j = l then 1 else 0 := by
  by_cases h : i = k ∧ j = l
  · obtain ⟨rfl, rfl⟩ := h
    simp [List.count_cons]
  · rw [if_neg h]
    have h2 : ¬ (k = i ∧ l = j) := fun e => h ⟨e.1.symm, e.2.symm⟩
    simp [List.count_cons, h2]

/-- The recorded run of `distance_matrix_cpp` on matrices with at least two
columns: it returns, every access is inside the storage of its matrix, none
touches `bin_mat`, and every cell of `dist_mat` is written exactly once. -/
theorem distance_matrix_trace {D : Type} (o : DoubleOps D) (facility user : Matrix D)
    (hfc : 2 ≤ facility.ncol) (huc : 2 ≤ user.ncol) :
    ∃ dm log, distance_matrix_traced o facility user = some (dm, log) ∧
      (∀ a, a ∈ log → a.in_bounds facility user ∧ a.target ≠ Target.bin_mat) ∧
      ∀ i j, i < user.nrow → j < facility.nrow →
        log.count (Access.mk Target.dist_mat true i j) = 1 := by
  have h := nested_loops_inv user.nrow facility.nrow
    (fun i j st => distance_cell_traced o facility user i j st)
    (fun k l st => st.1.nrow = user.nrow ∧ st.1.ncol = facility.nrow ∧
      (∀ a, a ∈ st.2 → a.in_bounds facility user ∧ a.target ≠ Target.bin_mat) ∧
      ∀ i j, i < user.nrow → j < facility.nrow →
        st.2.count (Access.mk Target.dist_mat true i j) =
          if i < k ∨ (i = k ∧ j < l) then 1 else 0)
    (Matrix.filled user.nrow facility.nrow (o.ofInt 0), [])
    ⟨rfl, rfl, fun a ha => absurd ha (List.not_mem_nil a), fun i j _ _ => by
      rw [if_neg (by omega)]; rfl⟩
    (by
      intro k s hk ⟨hr, hc, hb, hcount⟩
      refine ⟨hr, hc, hb, fun i j hi hj => ?_⟩
      rw [hcount i j hi hj]
      by_cases hv : i < k ∨ (i = k ∧ j < facility.nrow)
      · rw [if_pos hv, if_pos (by omega)]
      · rw [if_neg hv, if_neg (by omega)])
    (by
      intro k l s hk hl ⟨hr, hc, hb, hcount⟩
      obtain ⟨lat1, h1⟩ := user.get?_of_lt hk (show 0 < user.ncol by omega)
      obtain ⟨long1, h2⟩ := user.get?_of_lt hk (show 1 < user.ncol by omega)
      obtain ⟨lat2, h3⟩ := facility.get?_of_lt hl (show 0 < facility.ncol by omega)
      obtain ⟨long2, h4⟩ := facility.get?_of_lt hl (show 1 < facility.ncol by omega)
      obtain ⟨t, ht, htr, htc, _, _⟩ :=
        s.1.set?_spec (spherical_distance_cpp o lat1 long1 lat2 long2)
          (show k < s.1.nrow by omega) (show l < s.1.ncol by omega)
      refine ⟨(t, s.2 ++ [Access.mk Target.user false k 0, Access.mk Target.user false k 1,
          Access.mk Target.facility false l 0, Access.mk Target.facility false l 1,
          Access.mk Target.dist_mat true k l]),
        by simp [distance_cell_traced, h1, h2, h3, h4, ht], htr.trans hr,
        htc.trans hc, ?_, ?_⟩
      · intro a ha
        rcases List.mem_append.mp ha with h | h
        · exact hb a h
        · have hu0 := user.offset_lt hk (show 0 < user.ncol by omega)
          have hu1 := user.offset_lt hk (show 1 < user.ncol by omega)
          have hf0 := facility.offset_lt hl (show 0 < facility.ncol by omega)
          have hf1 := facility.offset_lt hl (show 1 < facility.ncol by omega)
          have hd := s.1.offset_lt (show k < s.1.nrow by omega) (show l < s.1.ncol by omega)
          rw [s.1.size_eq, hr, hc] at hd
          unfold Matrix.offset at hd
          rw [hr] at hd
          simp only [List.mem_cons, List.mem_singleton, List.not_mem_nil, or_false] at h
          rcases h with rfl | rfl | rfl | rfl | rfl
          · exact ⟨hu0, by simp⟩
          · exact ⟨hu1, by simp⟩
          · exact ⟨hf0, by simp⟩
          · exact ⟨hf1, by simp⟩
          · exact ⟨hd, by simp⟩
      · intro i j hi hj
        show List.count _ (s.2 ++ _) = _
        rw [List.count_append, hcount i j hi hj, count_distance_pass]
        by_cases hsame : i = k ∧ j = l
        · rw [if_pos hsame, if_neg (by omega), if_pos (by omega)]
        · rw [if_neg hsame]
          by_cases hv : i < k ∨ (i = k ∧ j < l)
          · rw [if_pos hv, if_pos (by omega)]
          · rw [if_neg hv, if_neg (by omega)])
  obtain ⟨⟨dm, log⟩, hs, _, _, hb, hcount⟩ := h
  refine ⟨dm, log, hs, hb, fun i j hi hj => ?_⟩
  rw [hcount i j hi hj, if_pos (by omega)]


/-- Number of writes to a cell among the accesses of one pass of the loop
body of `binary_matrix_cpp` at `(k, l)` that writes `bin_mat(k, l)`: the pass
reads `dist_mat(k, l)` once or twice, then writes. -/
theorem count_binary_pass (i j k l : Nat) (reads : List Access)
    (hreads : ∀ a, a ∈ reads → a.write = false) :
    List.count (Access.mk Target.dist_mat true i j)
        (reads ++ [Access.mk Target.bin_mat true k l]) = 0 ∧
      List.count (Access.mk Target.bin_mat true i j)
        (reads ++ [Access.mk Target.bin_mat true k l]) = (if i = k ∧ j = l then 1 else 0) ∧
      List.count (Access.mk Target.dist_mat true i j) reads = 0 ∧
      List.count (Access.mk Target.bin_mat true i j) reads = 0 := by
  have hz : ∀ a : Access, a.write = true → List.count a reads = 0 := by
    intro a ha
    apply List.count_eq_zero.mpr
    intro hmem
    have := hreads a hmem
    rw [ha] at this
    cases this
  refine ⟨?_, ?_, hz _ rfl, hz _ rfl⟩
  · rw [List.count_append, hz _ rfl]
    simp [List.count_cons]
  · rw [List.count_append, hz _ rfl]
    by_cases h : i = k ∧ j = l
    · obtain ⟨rfl, rfl⟩ := h
      simp [List.count_cons]
    · rw [if_neg h]
      have h2 : ¬ (k = i ∧ l = j) := fun e => h ⟨e.1.symm, e.2.symm⟩
      simp [List.count_cons, h2]

/-- The recorded run of `binary_matrix_cpp` on matrices with at least two
columns: it returns, every access is inside the storage of its matrix, every
cell of `dist_mat` is written exactly once, and the cell `(i, j)` of `bin_mat`
is written once when the distance `d` in the cell satisfies `d <= cutoff` or
`d > cutoff`, and not at all otherwise. -/
theorem binary_matrix_trace {D : Type} (o : DoubleOps D) (facility user : Matrix D)
    (distance_cutoff : D) (hfc : 2 ≤ facility.ncol) (huc : 2 ≤ user.ncol) :
    ∃ dm bm log, distance_matrix_cpp o facility user = some dm ∧
      binary_matrix_traced o facility user distance_cutoff = some (bm, log) ∧
      (∀ a, a ∈ log → a.in_bounds facility user) ∧
      ∀ i j, i < user.nrow → j < facility.nrow →
        log.count (Access.mk Target.dist_mat true i j) = 1 ∧
          ∃ d, dm.get? i j = some d ∧
            log.count (Access.mk Target.bin_mat true i j) =
              if (o.le d distance_cutoff || o.gt d distance_cutoff) = true then 1 else 0 := by
  obtain ⟨dm, log0, ht0, hb0, hcount0⟩ := distance_matrix_trace o facility user hfc huc
  have hdm : distance_matrix_cpp o facility user = some dm := by
    rw [← distance_matrix_traced_erase, ht0]
    rfl
  obtain ⟨hdr, hdc⟩ := distance_matrix_shape o facility user dm hdm
  have hbin0 : ∀ i j, List.count (Access.mk Target.bin_mat true i j) log0 = 0 := by
    intro i j
    apply List.count_eq_zero.mpr
    intro hmem
    exact (hb0 _ hmem).2 rfl
  have h := nested_loops_inv user.nrow facility.nrow
    (fun i j st => binary_cell_traced o dm distance_cutoff i j st)
    (fun k l st => st.1.nrow = user.nrow ∧ st.1.ncol = facility.nrow ∧
      (∀ a, a ∈ st.2 → a.in_bounds facility user) ∧
      ∀ i j, i < user.nrow → j < facility.nrow →
        st.2.count (Access.mk Target.dist_mat true i j) = 1 ∧
          ∃ d, dm.get? i j = some d ∧
            st.2.count (Access.mk Target.bin_mat true i j) =
              if i < k ∨ (i = k ∧ j < l) then
                (if (o.le d distance_cutoff || o.gt d distance_cutoff) = true then 1 else 0)
              else 0)
    (Matrix.filled user.nrow facility.nrow (0 : Int), log0)
    ⟨rfl, rfl, fun a ha => (hb0 a ha).1, fun i j hi hj => by
      obtain ⟨d, hd⟩ := dm.get?_of_lt (show i < dm.nrow by omega) (show j < dm.ncol by omega)
      refine ⟨hcount0 i j hi hj, d, hd, ?_⟩
      rw [if_neg (by omega)]
      exact hbin0 i j⟩
    (by
      intro k s hk ⟨hr, hc, hb, hcount⟩
      refine ⟨hr, hc, hb, fun i j hi hj => ?_⟩
      obtain ⟨h1, d, hd, h2⟩ := hcount i j hi hj
      refine ⟨h1, d, hd, ?_⟩
      rw [h2]
      exact if_congr (by omega) rfl rfl)
    (by
      intro k l s hk hl ⟨hr, hc, hb, hcount⟩
      obtain ⟨dkl, hdkl⟩ :=
        dm.get?_of_lt (show k < dm.nrow by omega) (show l < dm.ncol by omega)
      have hoff := s.1.offset_lt (show k < s.1.nrow by omega) (show l < s.1.ncol by omega)
      rw [s.1.size_eq, hr, hc] at hoff
      unfold Matrix.offset at hoff
      rw [hr] at hoff
      have hread : (Access.mk Target.dist_mat false k l).in_bounds facility user := hoff
      have hwrite : (Access.mk Target.bin_mat true k l).in_bounds facility user := hoff
      -- the accesses of this pass, and what they add to the two counts
      have key : ∀ (t : Matrix Int) (extra : List Access),
          t.nrow = user.nrow → t.ncol = facility.nrow →
          (∀ a, a ∈ extra → a.in_bounds facility user) →
          (∀ i j, List.count (Access.mk Target.dist_mat true i j) extra = 0) →
          (∀ i j, List.count (Access.mk Target.bin_mat true i j) extra =
            if i = k ∧ j = l then
              (if (o.le dkl distance_cutoff || o.gt dkl distance_cutoff) = true then 1 else 0)
            else 0) →
          (t.nrow = user.nrow ∧ t.ncol = facility.nrow ∧
            (∀ a, a ∈ s.2 ++ extra → a.in_bounds facility user) ∧
            ∀ i j, i < user.nrow → j < facility.nrow →
              (s.2 ++ extra).count (Access.mk Target.dist_mat true i j) = 1 ∧
                ∃ d, dm.get? i j = some d ∧
                  (s.2 ++ extra).count (Access.mk Target.bin_mat true i j) =
                    if i < k ∨ (i = k ∧ j < l + 1) then
                      (if (o.le d distance_cutoff || o.gt d distance_cutoff) = true
                        then 1 else 0)
                    else 0) := by
        intro t extra htr htc hin hd0 hb1
        refine ⟨htr, htc, ?_, ?_⟩
        · intro a ha
          rcases List.mem_append.mp ha with h | h
          · exact hb a h
          · exact hin a h
        · intro i j hi hj
          obtain ⟨h1, d, hd, h2⟩ := hcount i j hi hj
          refine ⟨by rw [List.count_append, h1, hd0], d, hd, ?_⟩
          rw [List.count_append, h2, hb1]
          by_cases hsame : i = k ∧ j = l
          · have e : d = dkl := by
              rw [hsame.1, hsame.2] at hd
              exact Option.some.inj (hd.symm.trans hdkl)
            rw [if_neg (show ¬ (i < k ∨ (i = k ∧ j < l)) by omega), if_pos hsame,
              if_pos (show i < k ∨ (i = k ∧ j < l + 1) by omega), e, Nat.zero_add]
          · rw [if_neg hsame, Nat.add_zero]
            exact if_congr (by omega) rfl rfl
      by_cases hle : o.le dkl distance_cutoff = true
      · obtain ⟨t, ht, htr, htc, _, _⟩ :=
          s.1.set?_spec (1 : Int) (show k < s.1.nrow by omega) (show l < s.1.ncol by omega)
        have hc1 := count_binary_pass
        refine ⟨(t, s.2 ++ ([Access.mk Target.dist_mat false k l] ++
            [Access.mk Target.bin_mat true k l])),
          by simp [binary_cell_traced, hdkl, hle, ht],
          key t _ (htr.trans hr) (htc.trans hc) ?_ ?_ ?_⟩
        · intro a ha
          simp only [List.mem_append, List.mem_singleton] at ha
          rcases ha with rfl | rfl
          · exact hread
          · exact hwrite
        · intro i j
          exact (hc1 i j k l [Access.mk Target.dist_mat false k l]
            (by intro a ha; rw [List.mem_singleton.mp ha])).1
        · intro i j
          rw [(hc1 i j k l [Access.mk Target.dist_mat false k l]
            (by intro a ha; rw [List.mem_singleton.mp ha])).2.1]
          simp [hle]
      · by_cases hgt : o.gt dkl distance_cutoff = true
        · obtain ⟨t, ht, htr, htc, _, _⟩ :=
            s.1.set?_spec (0 : Int) (show k < s.1.nrow by omega) (show l < s.1.ncol by omega)
          have hreads : ∀ a, a ∈ [Access.mk Target.dist_mat false k l,
              Access.mk Target.dist_mat false k l] → a.write = false := by
            intro a ha
            simp only [List.mem_cons, List.mem_singleton, List.not_mem_nil, or_false] at ha
            rcases ha with rfl | rfl <;> rfl
          have hc1 := count_binary_pass
          refine ⟨(t, s.2 ++ ([Access.mk Target.dist_mat false k l,
              Access.mk Target.dist_mat false k l] ++ [Access.mk Target.bin_mat true k l])),
            by simp [binary_cell_traced, hdkl, hle, hgt, ht],
            key t _ (htr.trans hr) (htc.trans hc) ?_ ?_ ?_⟩
          · intro a ha
            simp only [List.mem_append, List.mem_cons, List.mem_singleton,
              List.not_mem_nil, or_false] at ha
            rcases ha with (rfl | rfl) | rfl
            · exact hread
            · exact hread
            · exact hwrite
          · intro i j
            exact (hc1 i j k l _ hreads).1
          · intro i j
            rw [(hc1 i j k l _ hreads).2.1]
            simp [hgt]
        · have hreads : ∀ a, a ∈ [Access.mk Target.dist_mat false k l,
              Access.mk Target.dist_mat false k l] → a.write = false := by
            intro a ha
            simp only [List.mem_cons, List.mem_singleton, List.not_mem_nil, or_false] at ha
            rcases ha with rfl | rfl <;> rfl
          have hc1 := count_binary_pass
          refine ⟨(s.1, s.2 ++ [Access.mk Target.dist_mat false k l,
              Access.mk Target.dist_mat false k l]),
            by simp [binary_cell_traced, hdkl, hle, hgt],
            key s.1 _ hr hc ?_ ?_ ?_⟩
          · intro a ha
            simp only [List.mem_cons, List.mem_singleton, List.not_mem_nil, or_false] at ha
            rcases ha with rfl | rfl <;> exact hread
          · intro i j
            exact (hc1 i j k l _ hreads).2.2.1
          · intro i j
            rw [(hc1 i j k l _ hreads).2.2.2]
            simp [hle, hgt])
  obtain ⟨⟨bm, log⟩, hs, _, _, hb, hcount⟩ := h
  refine ⟨dm, bm, log, hdm, ?_, hb, fun i j hi hj => ?_⟩
  · simp only [binary_matrix_traced, ht0, Option.bind_eq_bind, Option.some_bind]
    exact hs
  · obtain ⟨h1, d, hd, h2⟩ := hcount i j hi hj
    refine ⟨h1, d, hd, ?_⟩
    rw [h2, if_pos (show i < user.nrow ∨ (i = user.nrow ∧ j < 0) by omega)]


/-- Counterexample to C20: both matrices have two columns, the coordinates of
the user are NaN, so the distance is NaN and neither `<=` nor `>` holds: the
run of `binary_matrix_cpp` returns the matrix with the cell 0 of the
constructor, and its accesses hold no write to `bin_mat(0, 0)`. -/
theorem nan_cell_not_written :
    2 ≤ origin_facility.ncol ∧ 2 ≤ nan_user.ncol ∧
      binary_matrix_cpp nanOps origin_facility nan_user (some 0) =
        some (Matrix.mk 1 1 [0] rfl) ∧
      (binary_matrix_traced nanOps origin_facility nan_user (some 0)).map
        (fun r => r.2.count (Access.mk Target.bin_mat true 0 0)) = some 0 :=
  ⟨by decide, by decide, rfl, rfl⟩

/-- C20, amended: on matrices with at least two columns the recorded runs of
`distance_matrix_cpp` and `binary_matrix_cpp` return (the loops end) with the
matrices of the two functions, every access `user(i,0)`, `user(i,1)`,
`facility(j,0)`, `facility(j,1)`, `dist_mat(i,j)`, `bin_mat(i,j)` they make is
inside the storage of its matrix, every cell of `dist_mat` is written exactly
once, and the cell `(i, j)` of `bin_mat` is written exactly once when the
distance `d` in the cell satisfies `d <= cutoff` or `d > cutoff`, and not at
all otherwise. -/
theorem accesses_in_bounds {D : Type} (o : DoubleOps D) (facility user : Matrix D)
    (distance_cutoff : D) (hfc : 2 ≤ facility.ncol) (huc : 2 ≤ user.ncol) :
    (∃ dm log, distance_matrix_traced o facility user = some (dm, log) ∧
        distance_matrix_cpp o facility user = some dm ∧
        (∀ a, a ∈ log → a.in_bounds facility user) ∧
        ∀ i j, i < user.nrow → j < facility.nrow →
          log.count (Access.mk Target.dist_mat true i j) = 1) ∧
      ∃ dm bm log, distance_matrix_cpp o facility user = some dm ∧
        binary_matrix_traced o facility user distance_cutoff = some (bm, log) ∧
        binary_matrix_cpp o facility user distance_cutoff = some bm ∧
        (∀ a, a ∈ log → a.in_bounds facility user) ∧
        ∀ i j, i < user.nrow → j < facility.nrow →
          log.count (Access.mk Target.dist_mat true i j) = 1 ∧
            ∃ d, dm.get? i j = some d ∧
              log.count (Access.mk Target.bin_mat true i j) =
                if (o.le d distance_cutoff || o.gt d distance_cutoff) = true then 1 else 0 := by
  constructor
  · obtain ⟨dm, log, ht, hb, hcount⟩ := distance_matrix_trace o facility user hfc huc
    refine ⟨dm, log, ht, ?_, fun a ha => (hb a ha).1, hcount⟩
    rw [← distance_matrix_traced_erase, ht]
    rfl
  · obtain ⟨dm, bm, log, hdm, ht, hb, hcount⟩ :=
      binary_matrix_trace o facility user distance_cutoff hfc huc
    refine ⟨dm, bm, log, hdm, ht, ?_, hb, hcount⟩
    rw [← binary_matrix_traced_erase, ht]
    rfl

/-- Witness of C20, amended: the matrices of the R example of the source file
and the cutoff 100. -/
theorem accesses_in_bounds_witness :
    (∃ dm log, distance_matrix_traced realOps facility_test_cpp user_test_cpp =
          some (dm, log) ∧
        distance_matrix_cpp realOps facility_test_cpp user_test_cpp = some dm ∧
        (∀ a, a ∈ log → a.in_bounds facility_test_cpp user_test_cpp) ∧
        ∀ i j, i < user_test_cpp.nrow → j < facility_test_cpp.nrow →
          log.count (Access.mk Target.dist_mat true i j) = 1) ∧
      ∃ dm bm log, distance_matrix_cpp realOps facility_test_cpp user_test_cpp = some dm ∧
        binary_matrix_traced realOps facility_test_cpp user_test_cpp 100 = some (bm, log) ∧
        binary_matrix_cpp realOps facility_test_cpp user_test_cpp 100 = some bm ∧
        (∀ a, a ∈ log → a.in_bounds facility_test_cpp user_test_cpp) ∧
        ∀ i j, i < user_test_cpp.nrow → j < facility_test_cpp.nrow →
          log.count (Access.mk Target.dist_mat true i j) = 1 ∧
            ∃ d, dm.get? i j = some d ∧
              log.count (Access.mk Target.bin_mat true i j) =
                if (realOps.le d 100 || realOps.gt d 100) = true then 1 else 0 :=
  accesses_in_bounds realOps facility_test_cpp user_test_cpp 100 (by decide) (by decide)

/-! ## Laws of double arithmetic -/

/-- Zero rounds to zero. -/
theorem Double.round_zero : Double.round 0 = Double.fin 0 := by
  simp [Double.round]

/-- The integers 1 and 2 are doubles. -/
theorem Double.round_small : Double.round 1 = Double.fin 1 ∧ Double.round 2 = Double.fin 2 := by
  decide!

/-- Rounding commutes with the change of sign. -/
theorem Double.round_neg (q : ℚ) : Double.round (-q) = Double.neg (Double.round q) := by
  by_cases h0 : q = 0
  · subst h0
    simp [Double.round, Double.neg]
  · have h0n : -q ≠ 0 := neg_ne_zero.mpr h0
    unfold Double.round
    rw [if_neg h0, if_neg h0n, abs_neg]
    by_cases hq : q < 0
    · have hq2 : ¬ (-q < 0) := by linarith
      by_cases hv : (2 : ℚ) ^ (1024 : ℤ) ≤ round_magnitude |q|
      · rw [if_pos hv, if_pos hv]
        simp [hq, hq2, Double.neg]
      · rw [if_neg hv, if_neg hv, if_pos hq, if_neg hq2]
        simp [Double.neg]
    · have hq2 : -q < 0 := by
        rcases lt_or_gt_of_ne h0 with h | h
        · exact absurd h hq
        · linarith
      by_cases hv : (2 : ℚ) ^ (1024 : ℤ) ≤ round_magnitude |q|
      · rw [if_pos hv, if_pos hv]
        simp [hq, hq2, Double.neg]
      · rw [if_neg hv, if_neg hv, if_neg hq, if_pos hq2]
        simp [Double.neg]

/-- The opposite of the opposite. -/
theorem Double.neg_neg (x : Double) : Double.neg (Double.neg x) = x := by
  cases x <;> simp [Double.neg]

/-- Addition of doubles is commutative. -/
theorem Double.add_comm (x y : Double) : Double.add x y = Double.add y x := by
  cases x with
  | nan => cases y <;> rfl
  | inf s =>
    cases y with
    | nan => rfl
    | inf t =>
      simp only [Double.add]
      by_cases h : s = t
      · subst h; rfl
      · have h2 : ¬ t = s := fun e => h e.symm
        simp [h, h2]
    | fin b => rfl
  | fin a =>
    cases y with
    | nan => rfl
    | inf t => rfl
    | fin b => simp only [Double.add, Rat.add_comm a b]

/-- Multiplication of doubles is commutative. -/
theorem Double.mul_comm (x y : Double) : Double.mul x y = Double.mul y x := by
  cases x with
  | nan => cases y <;> rfl
  | inf s =>
    cases y with
    | nan => rfl
    | inf t => cases s <;> cases t <;> rfl
    | fin b =>
      simp only [Double.mul]
      split
      · rfl
      · cases s <;> cases decide (b < 0) <;> rfl
  | fin a =>
    cases y with
    | nan => rfl
    | inf t =>
      simp only [Double.mul]
      split
      · rfl
      · cases t <;> cases decide (a < 0) <;> rfl
    | fin b => simp only [Double.mul, Rat.mul_comm a b]

/-- The opposite of a sum is the sum of the opposites. -/
theorem Double.neg_add (x y : Double) :
    Double.neg (Double.add x y) = Double.add (Double.neg x) (Double.neg y) := by
  cases x with
  | nan => cases y <;> rfl
  | inf s =>
    cases y with
    | nan => rfl
    | inf t => cases s <;> cases t <;> rfl
    | fin b => rfl
  | fin a =>
    cases y with
    | nan => rfl
    | inf t => rfl
    | fin b =>
      show Double.neg (Double.round (a + b)) = Double.round (-a + -b)
      rw [← Double.round_neg]
      congr 1
      ring

/-- Exchanging the two terms of a difference changes its sign. -/
theorem Double.sub_antisymm (x y : Double) :
    Double.sub x y = Double.neg (Double.sub y x) := by
  unfold Double.sub
  rw [Double.neg_add, Double.neg_neg, Double.add_comm]

/-- Half of a finite double. -/
theorem Double.div_fin_two (a : ℚ) :
    Double.div (Double.fin a) (Double.fin 2) = Double.round (a / 2) := by
  simp [Double.div]

/-- Halving commutes with the change of sign. -/
theorem Double.div_two_neg (x : Double) :
    Double.div (Double.neg x) (Double.fin 2) = Double.neg (Double.div x (Double.fin 2)) := by
  cases x with
  | nan => rfl
  | inf s => cases s <;> simp [Double.div, Double.neg]
  | fin a =>
    show Double.div (Double.fin (-a)) (Double.fin 2) =
      Double.neg (Double.div (Double.fin a) (Double.fin 2))
    rw [Double.div_fin_two, Double.div_fin_two, ← Double.round_neg]
    congr 1
    ring


/-- The halving count brackets its argument between two powers of two. -/
theorem log2_halving_spec (fuel : Nat) : ∀ n, 1 ≤ n → n ≤ fuel →
    2 ^ log2_halving fuel n ≤ n ∧ n < 2 ^ (log2_halving fuel n + 1) := by
  induction fuel with
  | zero => intro n h1 h2; omega
  | succ fuel ih =>
    intro n h1 h2
    unfold log2_halving
    by_cases hn : n < 2
    · rw [if_pos hn]
      simp
      omega
    · rw [if_neg hn]
      obtain ⟨ha, hb⟩ := ih (n / 2) (by omega) (by omega)
      constructor
      · calc 2 ^ (log2_halving fuel (n / 2) + 1) = 2 ^ log2_halving fuel (n / 2) * 2 := by
              rw [pow_succ]
          _ ≤ (n / 2) * 2 := Nat.mul_le_mul_right 2 ha
          _ ≤ n := Nat.div_mul_le_self n 2
      · have : n < (n / 2 + 1) * 2 := by omega
        calc n < (n / 2 + 1) * 2 := this
          _ ≤ 2 ^ (log2_halving fuel (n / 2) + 1) * 2 := Nat.mul_le_mul_right 2 hb
          _ = 2 ^ (log2_halving fuel (n / 2) + 1 + 1) := by rw [← pow_succ]

/-- The binary exponent of a positive rational is a lower power of two. -/
theorem binary_exponent_le (a : ℚ) (ha : 0 < a) : (2 : ℚ) ^ binary_exponent a ≤ a := by
  unfold binary_exponent
  simp only
  split
  · assumption
  · have hnum : 0 < a.num := Rat.num_pos.mpr ha
    have hn1 : 1 ≤ a.num.natAbs := by omega
    obtain ⟨h1, _⟩ := log2_halving_spec a.num.natAbs a.num.natAbs hn1 le_rfl
    obtain ⟨_, h2⟩ := log2_halving_spec a.den a.den a.den_pos le_rfl
    set Ln := log2_halving a.num.natAbs a.num.natAbs
    set Ld := log2_halving a.den a.den
    have e1 : (2 : ℚ) ^ ((Ln : ℤ) - (Ld : ℤ) - 1) = (2 : ℚ) ^ Ln / (2 : ℚ) ^ (Ld + 1) := by
      rw [show (Ln : ℤ) - (Ld : ℤ) - 1 = (Ln : ℤ) - ((Ld + 1 : ℕ) : ℤ) by push_cast; ring,
        zpow_sub₀ (by norm_num), zpow_natCast, zpow_natCast]
    rw [e1]
    have hden : (0 : ℚ) < a.den := by exact_mod_cast a.den_pos
    have hnumq : ((2 : ℚ) ^ Ln) ≤ (a.num : ℚ) := by
      have : ((2 ^ Ln : ℕ) : ℤ) ≤ a.num := by
        have : (a.num.natAbs : ℤ) = a.num := Int.natAbs_of_nonneg (le_of_lt hnum)
        rw [← this]
        exact_mod_cast h1
      exact_mod_cast this
    have hdenq : (a.den : ℚ) ≤ (2 : ℚ) ^ (Ld + 1) := by exact_mod_cast le_of_lt h2
    have hval : a = (a.num : ℚ) / (a.den : ℚ) := (Rat.num_div_den a).symm
    rw [hval, div_le_div_iff₀ (by positivity) hden]
    calc (2 : ℚ) ^ Ln * a.den ≤ a.num * a.den := by
          exact mul_le_mul_of_nonneg_right hnumq (le_of_lt hden)
      _ ≤ a.num * (2 : ℚ) ^ (Ld + 1) := by
          exact mul_le_mul_of_nonneg_left hdenq (by exact_mod_cast le_of_lt hnum)

/-- The nearest integer is at most one half away. -/
theorem round_half_even_error (t : ℚ) : |(round_half_even t : ℚ) - t| ≤ 1 / 2 := by
  have hf1 : ((⌊t⌋ : ℤ) : ℚ) ≤ t := Int.floor_le t
  have hf2 : t < ((⌊t⌋ : ℤ) : ℚ) + 1 := Int.lt_floor_add_one t
  unfold round_half_even
  simp only
  rw [abs_le]
  split
  · constructor <;> linarith
  · split
    · push_cast; constructor <;> linarith
    · split
      · constructor <;> linarith
      · push_cast; constructor <;> linarith

/-- The rounded magnitude of a positive rational is within half a unit in the
last place: a relative error of `2 ^ (-53)`, or `2 ^ (-1075)` below the normal
range. -/
theorem round_magnitude_error (a : ℚ) (ha : 0 < a) :
    |round_magnitude a - a| ≤ a / 2 ^ 53 + (2 : ℚ) ^ (-1075 : ℤ) := by
  have he := binary_exponent_le a ha
  unfold round_magnitude
  simp only
  set e : ℤ := binary_exponent a
  set u : ℤ := max e (-1022) - 52
  have hu : (0 : ℚ) < (2 : ℚ) ^ u := by positivity
  set t : ℚ := a / (2 : ℚ) ^ u
  have hn := round_half_even_error t
  have ht : t * (2 : ℚ) ^ u = a := div_mul_cancel₀ a (ne_of_gt hu)
  have hpow : (2 : ℚ) ^ u ≤ (a + (2 : ℚ) ^ (-1022 : ℤ)) / 2 ^ 52 := by
    have h1 : (2 : ℚ) ^ u = (2 : ℚ) ^ (max e (-1022)) / 2 ^ 52 := by
      rw [zpow_sub₀ (by norm_num)]
      norm_num
    rw [h1]
    apply div_le_div_of_nonneg_right _ (by positivity)
    rcases le_total e (-1022) with h | h
    · rw [max_eq_right h]
      linarith
    · rw [max_eq_left h]
      have : (0 : ℚ) < (2 : ℚ) ^ (-1022 : ℤ) := by positivity
      linarith
  have hδ : (2 : ℚ) ^ (-1022 : ℤ) / 2 ^ 52 / 2 = (2 : ℚ) ^ (-1075 : ℤ) := by
    rw [show (-1075 : ℤ) = -1022 - 53 by norm_num, zpow_sub₀ (by norm_num)]
    norm_num
  calc |(round_half_even t : ℚ) * (2 : ℚ) ^ u - a|
      = |((round_half_even t : ℚ) - t) * (2 : ℚ) ^ u| := by rw [sub_mul, ht]
    _ = |(round_half_even t : ℚ) - t| * (2 : ℚ) ^ u := by rw [abs_mul, abs_of_pos hu]
    _ ≤ 1 / 2 * (2 : ℚ) ^ u := mul_le_mul_of_nonneg_right hn (le_of_lt hu)
    _ ≤ 1 / 2 * ((a + (2 : ℚ) ^ (-1022 : ℤ)) / 2 ^ 52) := by
        apply mul_le_mul_of_nonneg_left hpow (by norm_num)
    _ = a / 2 ^ 53 + (2 : ℚ) ^ (-1075 : ℤ) := by
        rw [← hδ]
        ring

/-- A rational of magnitude at most `2 ^ 1023` rounds to a finite double,
within half a unit in the last place. -/
theorem Double.round_error (q : ℚ) (h : |q| ≤ 2 ^ 1023) :
    ∃ r, Double.round q = Double.fin r ∧ |r - q| ≤ |q| / 2 ^ 53 + (2 : ℚ) ^ (-1075 : ℤ) := by
  by_cases h0 : q = 0
  · refine ⟨0, by rw [h0, Double.round_zero], ?_⟩
    rw [h0]
    simp
    positivity
  · have ha : 0 < |q| := abs_pos.mpr h0
    have herr := round_magnitude_error |q| ha
    have hδ : (2 : ℚ) ^ (-1075 : ℤ) ≤ 1 := zpow_le_one_of_nonpos₀ (by norm_num) (by norm_num)
    have hsmall : ¬ (2 : ℚ) ^ (1024 : ℤ) ≤ round_magnitude |q| := by
      intro hbig
      have h1 := (abs_le.mp herr).2
      have h2 : (2 : ℚ) ^ (1024 : ℤ) = 2 * 2 ^ 1023 := by norm_num
      have h3 : |q| / 2 ^ 53 ≤ 2 ^ 1023 / 2 ^ 53 :=
        div_le_div_of_nonneg_right h (by positivity)
      have h4 : (2 : ℚ) ^ 1023 / 2 ^ 53 + 1 < 2 ^ 1023 := by norm_num
      linarith
    unfold Double.round
    rw [if_neg h0, if_neg hsmall]
    refine ⟨_, rfl, ?_⟩
    by_cases hq : q < 0
    · rw [if_pos hq]
      have : -round_magnitude |q| - q = -(round_magnitude |q| - |q|) := by
        rw [abs_of_neg hq]
        ring
      rw [this, abs_neg]
      exact herr
    · rw [if_neg hq]
      have : round_magnitude |q| - q = round_magnitude |q| - |q| := by
        rw [abs_of_nonneg (not_lt.mp hq)]
      rw [this]
      exact herr

/-- Small integer constants of the source are doubles, and the square root of
the double 1 is 1. -/
theorem Double.round_constants :
    Double.round 6371 = Double.fin 6371 ∧ Double.round 1000 = Double.fin 1000 ∧
      Double.round 180 = Double.fin 180 ∧ Double.sqrt (Double.fin 1) = Double.fin 1 := by
  decide!

/-- The constant 2 of the source is the double 2. -/
theorem ieee_two (l : Libm) : (ieeeOps l).ofInt 2 = Double.fin 2 := by
  show Double.round ((2 : ℤ) : ℚ) = Double.fin 2
  exact_mod_cast Double.round_small.2

/-- The constant 1 of the source is the double 1. -/
theorem ieee_one (l : Libm) : (ieeeOps l).ofInt 1 = Double.fin 1 := by
  show Double.round ((1 : ℤ) : ℚ) = Double.fin 1
  exact_mod_cast Double.round_small.1

/-- The constant 180 of the source is the double 180. -/
theorem ieee_180 (l : Libm) : (ieeeOps l).ofInt 180 = Double.fin 180 := by
  show Double.round ((180 : ℤ) : ℚ) = Double.fin 180
  exact_mod_cast Double.round_constants.2.2.1

/-- The product of two opposites. -/
theorem Double.mul_neg_neg (x : Double) :
    Double.mul (Double.neg x) (Double.neg x) = Double.mul x x := by
  cases x with
  | nan => rfl
  | inf s => cases s <;> rfl
  | fin a =>
    show Double.round (-a * -a) = Double.round (a * a)
    rw [neg_mul_neg]

/-- The product of a finite double and zero is zero. -/
theorem Double.mul_fin_zero (a : ℚ) : Double.mul (Double.fin a) (Double.fin 0) = Double.fin 0 := by
  show Double.round (a * 0) = Double.fin 0
  rw [mul_zero, Double.round_zero]

/-- The product of zero and a finite double is zero. -/
theorem Double.zero_mul_fin (a : ℚ) : Double.mul (Double.fin 0) (Double.fin a) = Double.fin 0 := by
  show Double.round (0 * a) = Double.fin 0
  rw [zero_mul, Double.round_zero]

/-- The difference of a finite double with itself is zero. -/
theorem Double.sub_self_fin (a : ℚ) : Double.sub (Double.fin a) (Double.fin a) = Double.fin 0 := by
  show Double.round (a + -a) = Double.fin 0
  rw [add_neg_cancel, Double.round_zero]

/-- The comparison `==` of a double with itself holds unless it is NaN. -/
theorem Double.eq_self (x : Double) (h : x ≠ Double.nan) : Double.eq x x = true := by
  cases x with
  | nan => exact absurd rfl h
  | inf s => simp [Double.eq]
  | fin a => simp [Double.eq]

/-! ## Evaluations in double arithmetic -/

/-- The distance in double arithmetic between `(0, 0)` and `(0, 180)`, in
both directions: 20015086.796020571887... -/
theorem ieee_half_turn :
    spherical_distance_cpp (ieeeOps libm_table) (Double.fin 0) (Double.fin 0) (Double.fin 0)
        (Double.fin 180) = Double.fin (5372758950969361 / 268435456) ∧
      spherical_distance_cpp (ieeeOps libm_table) (Double.fin 0) (Double.fin 180) (Double.fin 0)
        (Double.fin 0) = Double.fin (5372758950969361 / 268435456) := by
  decide!

/-- C6, the failing input: the coordinates `(8, -1)` and `(-8, 179)` are in
range, line 44 gives `a = 1 + 2 ^ (-52)`, the square root of `1 - a` is NaN
and `spherical_distance_cpp` returns NaN, which is not `>= 0`; the only cell
of the distance matrix of these two points is NaN. -/
theorem antipodal_distance_nan :
    haversine_a (ieeeOps libm_table) (Double.fin 8) (Double.fin (-1)) (Double.fin (-8))
        (Double.fin 179) = Double.fin (4503599627370497 / 4503599627370496) ∧
      Double.sqrt (Double.sub (Double.fin 1)
        (Double.fin (4503599627370497 / 4503599627370496))) = Double.nan ∧
      spherical_distance_cpp (ieeeOps libm_table) (Double.fin 8) (Double.fin (-1))
        (Double.fin (-8)) (Double.fin 179) = Double.nan ∧
      Double.le (Double.fin 0)
        (spherical_distance_cpp (ieeeOps libm_table) (Double.fin 8) (Double.fin (-1))
          (Double.fin (-8)) (Double.fin 179)) = false ∧
      (distance_matrix_cpp (ieeeOps libm_table) (point_matrix (Double.fin (-8)) (Double.fin 179))
        (point_matrix (Double.fin 8) (Double.fin (-1)))).map (fun m => m.data) =
          some [Double.nan] := by
  decide!

/-- C7, counterexample: in double arithmetic, for the in-range points
`(8, -1)` and `(-8, 179)`, line 44 produces `a = 1 + 2 ^ (-52)` and `sqrt`
receives `a` and `1 - a = -2 ^ (-52)`, not the clamped values 1 and 0: a
negative number is passed to `sqrt` and the result is NaN. -/
theorem sqrt_receives_negative :
    haversine_a (ieeeOps libm_table) (Double.fin 8) (Double.fin (-1)) (Double.fin (-8))
        (Double.fin 179) = Double.fin (4503599627370497 / 4503599627370496) ∧
      sqrt_args (ieeeOps libm_table)
        (haversine_a (ieeeOps libm_table) (Double.fin 8) (Double.fin (-1)) (Double.fin (-8))
          (Double.fin 179)) =
        (Double.fin (4503599627370497 / 4503599627370496),
          Double.fin (-1 / 4503599627370496)) ∧
      (Double.clamp_unit
          (haversine_a (ieeeOps libm_table) (Double.fin 8) (Double.fin (-1)) (Double.fin (-8))
            (Double.fin 179)),
        Double.sub (Double.fin 1) (Double.clamp_unit
          (haversine_a (ieeeOps libm_table) (Double.fin 8) (Double.fin (-1)) (Double.fin (-8))
            (Double.fin 179)))) = (Double.fin 1, Double.fin 0) ∧
      Double.sqrt (Double.fin (-1 / 4503599627370496)) = Double.nan ∧
      spherical_distance_cpp (ieeeOps libm_table) (Double.fin 8) (Double.fin (-1))
        (Double.fin (-8)) (Double.fin 179) = Double.nan := by
  decide!

/-- In exact real arithmetic the two values handed to `sqrt` are the clamped
ones, and neither is negative. -/
theorem sqrt_args_real (lat1 long1 lat2 long2 : ℝ) :
    sqrt_args realOps (haversine_a realOps lat1 long1 lat2 long2) =
        (clamp_unit (haversine_a realOps lat1 long1 lat2 long2),
          1 - clamp_unit (haversine_a realOps lat1 long1 lat2 long2)) ∧
      0 ≤ (sqrt_args realOps (haversine_a realOps lat1 long1 lat2 long2)).1 ∧
      0 ≤ (sqrt_args realOps (haversine_a realOps lat1 long1 lat2 long2)).2 := by
  obtain ⟨h0, h1⟩ := haversine_a_unit lat1 long1 lat2 long2
  have hargs : sqrt_args realOps (haversine_a realOps lat1 long1 lat2 long2) =
      (haversine_a realOps lat1 long1 lat2 long2,
        1 - haversine_a realOps lat1 long1 lat2 long2) := by
    simp [sqrt_args, realOps]
  have hclamp : clamp_unit (haversine_a realOps lat1 long1 lat2 long2) =
      haversine_a realOps lat1 long1 lat2 long2 := by
    rw [clamp_unit, max_eq_right h0, min_eq_right h1]
  refine ⟨?_, ?_, ?_⟩
  · rw [hclamp, hargs]
  · rw [hargs]
    exact h0
  · rw [hargs]
    exact sub_nonneg.mpr h1

/-- C7, amended: `spherical_distance_cpp` does not clamp `a`.  In every
arithmetic the two values handed to `sqrt` are `a` and `1 - a`, with `a` as
line 44 computed it.  For a finite double `a` they are `min(1, max(0, a))` and
`1 - min(1, max(0, a))` exactly when `0 <= a <= 1`; in exact real arithmetic
every `a` that line 44 produces is in that range, and neither value is
negative. -/
theorem sqrt_args_unclamped :
    (∀ (D : Type) (o : DoubleOps D) (lat1 long1 lat2 long2 : D),
        spherical_distance_cpp o lat1 long1 lat2 long2 =
          o.mul (o.mul (o.mul (o.ofInt 2)
            (o.atan2 (o.sqrt (sqrt_args o (haversine_a o lat1 long1 lat2 long2)).1)
              (o.sqrt (sqrt_args o (haversine_a o lat1 long1 lat2 long2)).2)))
            (o.ofInt 6371)) (o.ofInt 1000)) ∧
      (∀ (D : Type) (o : DoubleOps D) (a : D), sqrt_args o a = (a, o.sub (o.ofInt 1) a)) ∧
      (∀ (l : Libm) (q : ℚ),
        sqrt_args (ieeeOps l) (Double.fin q) =
            (Double.clamp_unit (Double.fin q),
              Double.sub (Double.fin 1) (Double.clamp_unit (Double.fin q))) ↔
          0 ≤ q ∧ q ≤ 1) ∧
      ∀ lat1 long1 lat2 long2 : ℝ,
        sqrt_args realOps (haversine_a realOps lat1 long1 lat2 long2) =
            (clamp_unit (haversine_a realOps lat1 long1 lat2 long2),
              1 - clamp_unit (haversine_a realOps lat1 long1 lat2 long2)) ∧
          0 ≤ (sqrt_args realOps (haversine_a realOps lat1 long1 lat2 long2)).1 ∧
          0 ≤ (sqrt_args realOps (haversine_a realOps lat1 long1 lat2 long2)).2 := by
  refine ⟨fun _ _ _ _ _ _ => rfl, fun _ _ _ => rfl, fun l q => ?_, sqrt_args_real⟩
  constructor
  · intro h
    have h1 := congrArg Prod.fst h
    simp only [sqrt_args, Double.clamp_unit] at h1
    have h2 : q = min 1 (max 0 q) := Double.fin.inj h1
    constructor
    · rw [h2]
      exact le_min (by norm_num) (le_max_left 0 q)
    · rw [h2]
      exact min_le_left 1 _
  · rintro ⟨h0, h1⟩
    simp only [sqrt_args, Double.clamp_unit, max_eq_right h0, min_eq_right h1, ieee_one]
    rfl

/-! ## Symmetry and self-distance in double arithmetic -/

/-- The local `a` is the same double when the two points are exchanged, for a
libm whose `sin` is odd and whose `pow(., 2)` is even. -/
theorem ieee_haversine_a_symm (l : Libm)
    (hsin : ∀ x, l.sin (Double.neg x) = Double.neg (l.sin x))
    (hpow : ∀ x, l.pow (Double.neg x) (Double.fin 2) = l.pow x (Double.fin 2))
    (lat1 long1 lat2 long2 : Double) :
    haversine_a (ieeeOps l) lat1 long1 lat2 long2 =
      haversine_a (ieeeOps l) lat2 long2 lat1 long1 := by
  have key : ∀ x y : Double,
      l.pow (l.sin (Double.div (Double.sub x y) (Double.fin 2))) (Double.fin 2) =
        l.pow (l.sin (Double.div (Double.sub y x) (Double.fin 2))) (Double.fin 2) := by
    intro x y
    rw [Double.sub_antisymm x y, Double.div_two_neg, hsin, hpow]
  unfold haversine_a
  simp only [ieee_two]
  show Double.add (l.pow (l.sin (Double.div (Double.sub _ _) (Double.fin 2))) (Double.fin 2))
      (Double.mul (Double.mul (l.cos _) (l.cos _))
        (l.pow (l.sin (Double.div (Double.sub _ _) (Double.fin 2))) (Double.fin 2))) =
    Double.add (l.pow (l.sin (Double.div (Double.sub _ _) (Double.fin 2))) (Double.fin 2))
      (Double.mul (Double.mul (l.cos _) (l.cos _))
        (l.pow (l.sin (Double.div (Double.sub _ _) (Double.fin 2))) (Double.fin 2)))
  rw [key (deg2rad_cpp (ieeeOps l) lat2) (deg2rad_cpp (ieeeOps l) lat1),
    key (deg2rad_cpp (ieeeOps l) long2) (deg2rad_cpp (ieeeOps l) long1),
    Double.mul_comm (l.cos (deg2rad_cpp (ieeeOps l) lat1))]

/-- The sine of the table is odd. -/
theorem libm_table_sin_odd (x : Double) :
    libm_table.sin (Double.neg x) = Double.neg (libm_table.sin x) := by
  cases x with
  | nan => rfl
  | inf s => rfl
  | fin q =>
    show (if -q < 0 then Double.neg (sin_table (- -q)) else sin_table (-q)) =
      Double.neg (if q < 0 then Double.neg (sin_table (-q)) else sin_table q)
    rcases lt_trichotomy q 0 with h | h | h
    · rw [if_neg (by linarith), if_pos h, Double.neg_neg]
    · subst h
      simp [sin_table, Double.neg]
    · rw [if_pos (by linarith), if_neg (by linarith), neg_neg]

/-- The square of the table is even. -/
theorem libm_table_pow_even (x : Double) :
    libm_table.pow (Double.neg x) (Double.fin 2) = libm_table.pow x (Double.fin 2) := by
  show (if Double.fin 2 = Double.fin 2 then Double.mul (Double.neg x) (Double.neg x)
      else Double.nan) =
    (if Double.fin 2 = Double.fin 2 then Double.mul x x else Double.nan)
  rw [if_pos rfl, if_pos rfl, Double.mul_neg_neg]

/-- C4, counterexample: in double arithmetic both calls for the in-range
points `(8, -1)` and `(-8, 179)` return NaN, and the comparison `==` of the two
results is false. -/
theorem symmetry_fails_on_nan :
    spherical_distance_cpp (ieeeOps libm_table) (Double.fin 8) (Double.fin (-1))
        (Double.fin (-8)) (Double.fin 179) = Double.nan ∧
      spherical_distance_cpp (ieeeOps libm_table) (Double.fin (-8)) (Double.fin 179)
        (Double.fin 8) (Double.fin (-1)) = Double.nan ∧
      Double.eq
        (spherical_distance_cpp (ieeeOps libm_table) (Double.fin 8) (Double.fin (-1))
          (Double.fin (-8)) (Double.fin 179))
        (spherical_distance_cpp (ieeeOps libm_table) (Double.fin (-8)) (Double.fin 179)
          (Double.fin 8) (Double.fin (-1))) = false := by
  decide!

/-- C4, amended, in IEEE 754 double arithmetic: for a libm whose `sin` is odd
and whose `pow(., 2)` is even, `spherical_distance_cpp` returns the same double
for `(lat1, long1, lat2, long2)` and for `(lat2, long2, lat1, long1)`, whatever
the four doubles are, so that the two results compare equal with `==` whenever
the result is not NaN. -/
theorem ieee_distance_symm (l : Libm)
    (hsin : ∀ x, l.sin (Double.neg x) = Double.neg (l.sin x))
    (hpow : ∀ x, l.pow (Double.neg x) (Double.fin 2) = l.pow x (Double.fin 2))
    (lat1 long1 lat2 long2 : Double) :
    spherical_distance_cpp (ieeeOps l) lat1 long1 lat2 long2 =
        spherical_distance_cpp (ieeeOps l) lat2 long2 lat1 long1 ∧
      (spherical_distance_cpp (ieeeOps l) lat1 long1 lat2 long2 ≠ Double.nan →
        Double.eq (spherical_distance_cpp (ieeeOps l) lat1 long1 lat2 long2)
          (spherical_distance_cpp (ieeeOps l) lat2 long2 lat1 long1) = true) := by
  have h : spherical_distance_cpp (ieeeOps l) lat1 long1 lat2 long2 =
      spherical_distance_cpp (ieeeOps l) lat2 long2 lat1 long1 := by
    rw [spherical_distance_eq, spherical_distance_eq,
      ieee_haversine_a_symm l hsin hpow lat1 long1 lat2 long2]
  refine ⟨h, fun hn => ?_⟩
  rw [← h]
  exact Double.eq_self _ hn

/-- Witness of C4, amended: the table libm has an odd `sin` and an even
`pow(., 2)`; the distances between `(0, 0)` and `(0, 180)` in the two
directions are the same double and compare equal. -/
theorem ieee_distance_symm_witness :
    (∀ x, libm_table.sin (Double.neg x) = Double.neg (libm_table.sin x)) ∧
    (∀ x, libm_table.pow (Double.neg x) (Double.fin 2) = libm_table.pow x (Double.fin 2)) ∧
    spherical_distance_cpp (ieeeOps libm_table) (Double.fin 0) (Double.fin 0) (Double.fin 0)
        (Double.fin 180) =
      spherical_distance_cpp (ieeeOps libm_table) (Double.fin 0) (Double.fin 180) (Double.fin 0)
        (Double.fin 0) ∧
    Double.eq
      (spherical_distance_cpp (ieeeOps libm_table) (Double.fin 0) (Double.fin 0) (Double.fin 0)
        (Double.fin 180))
      (spherical_distance_cpp (ieeeOps libm_table) (Double.fin 0) (Double.fin 180) (Double.fin 0)
        (Double.fin 0)) = true :=
  ⟨libm_table_sin_odd, libm_table_pow_even,
    (ieee_distance_symm libm_table libm_table_sin_odd libm_table_pow_even
      (Double.fin 0) (Double.fin 0) (Double.fin 0) (Double.fin 180)).1,
    (ieee_distance_symm libm_table libm_table_sin_odd libm_table_pow_even
      (Double.fin 0) (Double.fin 0) (Double.fin 0) (Double.fin 180)).2
      (by rw [ieee_half_turn.1]; exact Double.noConfusion)⟩

/-- The double `M_PI` is within `1.3e-16` of π. -/
theorem M_PI_error :
    |((884279719003555 / 281474976710656 : ℚ) : ℝ) - Real.pi| ≤ 13 / 10 ^ 17 := by
  have h1 := Real.pi_gt_d20
  have h2 := Real.pi_lt_d20
  rw [abs_le]
  constructor <;> push_cast <;> norm_num <;> linarith

/-- In double arithmetic `deg2rad_cpp` of a finite double of magnitude at most
`2 ^ 1020` is a finite double, two roundings away from `deg * M_PI / 180`. -/
theorem ieee_deg2rad_rat (l : Libm) (x : ℚ) (hx : |x| ≤ 2 ^ 1020) :
    ∃ r : ℚ, deg2rad_cpp (ieeeOps l) (Double.fin x) = Double.fin r ∧
      |r - x * (884279719003555 / 281474976710656) / 180| ≤
        |x| * (39 / 10 ^ 19) + 2 * (2 : ℚ) ^ (-1075 : ℤ) := by
  have hA : 0 ≤ |x| := abs_nonneg x
  have hδ0 : (0 : ℚ) < (2 : ℚ) ^ (-1075 : ℤ) := by positivity
  have hδ1 : (2 : ℚ) ^ (-1075 : ℤ) ≤ 1 := zpow_le_one_of_nonpos₀ (by norm_num) (by norm_num)
  have hq1 : |x * (884279719003555 / 281474976710656 : ℚ)| =
      |x| * (884279719003555 / 281474976710656) := by
    rw [abs_mul, abs_of_pos (by norm_num : (0 : ℚ) < 884279719003555 / 281474976710656)]
  have hq1le : |x * (884279719003555 / 281474976710656 : ℚ)| ≤ 2 ^ 1023 := by
    rw [hq1]
    have : |x| * (884279719003555 / 281474976710656 : ℚ) ≤ 2 ^ 1020 * 4 := by
      apply mul_le_mul hx (by norm_num) (by norm_num) (by positivity)
    have h2 : (2 : ℚ) ^ 1020 * 4 ≤ 2 ^ 1023 := by norm_num
    linarith
  obtain ⟨r1, hr1, he1⟩ := Double.round_error _ hq1le
  rw [hq1] at he1
  have hr1abs : |r1| ≤ |x| * (884279719003555 / 281474976710656) +
      (|x| * (884279719003555 / 281474976710656) / 2 ^ 53 + (2 : ℚ) ^ (-1075 : ℤ)) := by
    have := abs_sub_abs_le_abs_sub r1 (x * (884279719003555 / 281474976710656))
    rw [hq1] at this
    linarith
  have hq2 : |r1 / 180| = |r1| / 180 := by
    rw [abs_div, abs_of_pos (by norm_num : (0 : ℚ) < 180)]
  have hq2le : |r1 / 180| ≤ 2 ^ 1023 := by
    rw [hq2]
    have h1 : |x| * (884279719003555 / 281474976710656 : ℚ) ≤ 2 ^ 1020 * 4 := by
      apply mul_le_mul hx (by norm_num) (by norm_num) (by positivity)
    have h2 : ((2 : ℚ) ^ 1020 * 4 + (2 ^ 1020 * 4 / 2 ^ 53 + 1)) / 180 ≤ 2 ^ 1023 := by norm_num
    have h3 : |x| * (884279719003555 / 281474976710656 : ℚ) / 2 ^ 53 ≤ 2 ^ 1020 * 4 / 2 ^ 53 :=
      div_le_div_of_nonneg_right h1 (by positivity)
    have h4 : |r1| / 180 ≤ ((2 : ℚ) ^ 1020 * 4 + (2 ^ 1020 * 4 / 2 ^ 53 + 1)) / 180 :=
      div_le_div_of_nonneg_right (by linarith) (by norm_num)
    linarith
  obtain ⟨r2, hr2, he2⟩ := Double.round_error _ hq2le
  rw [hq2] at he2
  refine ⟨r2, ?_, ?_⟩
  · unfold deg2rad_cpp
    rw [ieee_180]
    show Double.div (Double.round (x * (884279719003555 / 281474976710656)))
      (Double.fin 180) = Double.fin r2
    rw [hr1]
    show (if (180 : ℚ) = 0 then (if r1 = 0 then Double.nan else Double.inf (decide (r1 < 0)))
      else Double.round (r1 / 180)) = Double.fin r2
    rw [if_neg (by norm_num), hr2]
  · have hsplit : r2 - x * (884279719003555 / 281474976710656) / 180 =
        (r2 - r1 / 180) + (r1 - x * (884279719003555 / 281474976710656)) / 180 := by ring
    rw [hsplit]
    have h3 := abs_add (r2 - r1 / 180) ((r1 - x * (884279719003555 / 281474976710656)) / 180)
    have h4 : |(r1 - x * (884279719003555 / 281474976710656)) / 180| =
        |r1 - x * (884279719003555 / 281474976710656)| / 180 := by
      rw [abs_div, abs_of_pos (by norm_num : (0 : ℚ) < 180)]
    rw [h4] at h3
    have h5 : |r1 - x * (884279719003555 / 281474976710656)| / 180 ≤
        (|x| * (884279719003555 / 281474976710656) / 2 ^ 53 + (2 : ℚ) ^ (-1075 : ℤ)) / 180 :=
      div_le_div_of_nonneg_right he1 (by norm_num)
    have h6 : |r1| / 180 / 2 ^ 53 ≤ (|x| * (884279719003555 / 281474976710656) +
        (|x| * (884279719003555 / 281474976710656) / 2 ^ 53 + (2 : ℚ) ^ (-1075 : ℤ)))
          / 180 / 2 ^ 53 := by
      apply div_le_div_of_nonneg_right _ (by positivity)
      exact div_le_div_of_nonneg_right hr1abs (by norm_num)
    generalize (2 : ℚ) ^ (-1075 : ℤ) = δ at *
    generalize |x| = A at *
    generalize |r1| = B at *
    generalize |r2 - r1 / 180| = U at *
    generalize |r1 - x * (884279719003555 / 281474976710656)| = V at *
    norm_num at h5 h6 he2 ⊢
    linarith

/-- The value of the local `a` for two equal points whose radian values are
finite doubles is zero, for a libm with `sin(0) = 0`, `pow(0, 2) = 0` and a
cosine of magnitude at most 1. -/
theorem ieee_haversine_a_self (l : Libm) (hsin : l.sin (Double.fin 0) = Double.fin 0)
    (hpow : l.pow (Double.fin 0) (Double.fin 2) = Double.fin 0)
    (lat long : Double) (p r c : ℚ)
    (hlat : deg2rad_cpp (ieeeOps l) lat = Double.fin p)
    (hlong : deg2rad_cpp (ieeeOps l) long = Double.fin r)
    (hcos : l.cos (Double.fin p) = Double.fin c) (hc : |c| ≤ 1) :
    haversine_a (ieeeOps l) lat long lat long = Double.fin 0 := by
  have hcc : |c * c| ≤ 2 ^ 1023 := by
    rw [abs_mul]
    have h1 : |c| * |c| ≤ 1 := mul_le_one₀ hc (abs_nonneg c) hc
    have h2 : (1 : ℚ) ≤ 2 ^ 1023 := one_le_pow₀ (by norm_num)
    linarith
  obtain ⟨m, hm, _⟩ := Double.round_error (c * c) hcc
  unfold haversine_a
  simp only [ieee_two, hlat, hlong]
  show Double.add (l.pow (l.sin (Double.div (Double.sub (Double.fin p) (Double.fin p))
        (Double.fin 2))) (Double.fin 2))
      (Double.mul (Double.mul (l.cos (Double.fin p)) (l.cos (Double.fin p)))
        (l.pow (l.sin (Double.div (Double.sub (Double.fin r) (Double.fin r)) (Double.fin 2)))
          (Double.fin 2))) = Double.fin 0
  have hdiv : Double.div (Double.fin 0) (Double.fin 2) = Double.fin 0 := by
    rw [Double.div_fin_two, zero_div, Double.round_zero]
  have hmul : Double.mul (Double.fin c) (Double.fin c) = Double.fin m := hm
  rw [Double.sub_self_fin, Double.sub_self_fin, hdiv, hsin, hpow, hcos, hmul,
    Double.mul_fin_zero]
  show Double.round (0 + 0) = Double.fin 0
  rw [add_zero, Double.round_zero]

/-- The distance that belongs to `a = 0` is zero, for a libm with
`atan2(0, 1) = 0`. -/
theorem ieee_distance_of_zero (l : Libm)
    (hatan : l.atan2 (Double.fin 0) (Double.fin 1) = Double.fin 0) :
    distance_of_a (ieeeOps l) (Double.fin 0) = Double.fin 0 := by
  unfold distance_of_a sqrt_args
  simp only [ieee_two, ieee_one]
  show Double.mul (Double.mul (Double.mul (Double.fin 2)
      (l.atan2 (Double.sqrt (Double.fin 0))
        (Double.sqrt (Double.sub (Double.fin 1) (Double.fin 0)))))
      (Double.round ((6371 : ℤ) : ℚ))) (Double.round ((1000 : ℤ) : ℚ)) = Double.fin 0
  have h0 : Double.sqrt (Double.fin 0) = Double.fin 0 := by simp [Double.sqrt]
  have h1 : Double.sub (Double.fin 1) (Double.fin 0) = Double.fin 1 := by
    show Double.round (1 + -0) = Double.fin 1
    rw [neg_zero, add_zero, Double.round_small.1]
  have h6371 : Double.round ((6371 : ℤ) : ℚ) = Double.fin 6371 := by
    exact_mod_cast Double.round_constants.1
  have h1000 : Double.round ((1000 : ℤ) : ℚ) = Double.fin 1000 := by
    exact_mod_cast Double.round_constants.2.1
  rw [h0, h1, Double.round_constants.2.2.2, hatan, Double.mul_fin_zero, h6371,
    Double.zero_mul_fin, h1000, Double.zero_mul_fin]

/-- C5, counterexample: in double arithmetic the distance from a point to
itself is NaN, not 0, when a coordinate is NaN and when the coordinate is the
finite double `2 ^ 1023`, whose product with `M_PI` overflows. -/
theorem self_distance_not_zero :
    spherical_distance_cpp (ieeeOps libm_table) Double.nan (Double.fin 0) Double.nan
        (Double.fin 0) = Double.nan ∧
      Double.round (2 ^ 1023) = Double.fin (2 ^ 1023) ∧
      deg2rad_cpp (ieeeOps libm_table) (Double.fin (2 ^ 1023)) = Double.inf false ∧
      spherical_distance_cpp (ieeeOps libm_table) (Double.fin (2 ^ 1023)) (Double.fin 0)
        (Double.fin (2 ^ 1023)) (Double.fin 0) = Double.nan ∧
      Double.eq
        (spherical_distance_cpp (ieeeOps libm_table) (Double.fin (2 ^ 1023)) (Double.fin 0)
          (Double.fin (2 ^ 1023)) (Double.fin 0)) (Double.fin 0) = false := by
  decide!

/-- C5, amended, in IEEE 754 double arithmetic: for finite doubles `lat` and
`long` of magnitude at most `2 ^ 1020` (every valid coordinate is one),
`spherical_distance_cpp(lat, long, lat, long)` is the double 0, for every libm
with `sin(0) = 0`, `pow(0, 2) = 0`, `atan2(0, 1) = 0` and a cosine of
magnitude at most 1 at the radian latitude. -/
theorem ieee_distance_self (l : Libm) (hsin : l.sin (Double.fin 0) = Double.fin 0)
    (hpow : l.pow (Double.fin 0) (Double.fin 2) = Double.fin 0)
    (hatan : l.atan2 (Double.fin 0) (Double.fin 1) = Double.fin 0)
    (lat long c : ℚ) (hlat : |lat| ≤ 2 ^ 1020) (hlong : |long| ≤ 2 ^ 1020)
    (hcos : l.cos (deg2rad_cpp (ieeeOps l) (Double.fin lat)) = Double.fin c) (hc : |c| ≤ 1) :
    spherical_distance_cpp (ieeeOps l) (Double.fin lat) (Double.fin long) (Double.fin lat)
      (Double.fin long) = Double.fin 0 := by
  obtain ⟨p, hp, _⟩ := ieee_deg2rad_rat l lat hlat
  obtain ⟨r, hr, _⟩ := ieee_deg2rad_rat l long hlong
  rw [hp] at hcos
  rw [spherical_distance_eq,
    ieee_haversine_a_self l hsin hpow (Double.fin lat) (Double.fin long) p r c hp hr hcos hc]
  exact ieee_distance_of_zero l hatan

/-- Witness of C5, amended: the point `(8, 180)` with the table libm. -/
theorem ieee_distance_self_witness :
    libm_table.sin (Double.fin 0) = Double.fin 0 ∧
    libm_table.pow (Double.fin 0) (Double.fin 2) = Double.fin 0 ∧
    libm_table.atan2 (Double.fin 0) (Double.fin 1) = Double.fin 0 ∧
    |(8 : ℚ)| ≤ 2 ^ 1020 ∧ |(180 : ℚ)| ≤ 2 ^ 1020 ∧
    libm_table.cos (deg2rad_cpp (ieeeOps libm_table) (Double.fin 8)) =
      Double.fin (4459770905381437 / 4503599627370496) ∧
    |(4459770905381437 / 4503599627370496 : ℚ)| ≤ 1 ∧
    spherical_distance_cpp (ieeeOps libm_table) (Double.fin 8) (Double.fin 180) (Double.fin 8)
      (Double.fin 180) = Double.fin 0 :=
  ⟨by decide!, by decide!, by decide!, by decide!, by decide!, by decide!, by decide!,
    ieee_distance_self libm_table (by decide!) (by decide!) (by decide!)
      8 180 (4459770905381437 / 4503599627370496)
      (by decide!) (by decide!) (by decide!) (by decide!)⟩

/-! ## The conversion to radians in double arithmetic -/

/-- C10, counterexample: at the finite doubles `2 ^ 1023` and `1e308` the
product `deg * M_PI` overflows and `deg2rad_cpp` returns `+inf`, not a value
near `deg * π / 180`, which is below `2 ^ 1018`. -/
theorem deg2rad_overflow :
    Double.round (2 ^ 1023) = Double.fin (2 ^ 1023) ∧
      deg2rad_cpp (ieeeOps libm_table) (Double.fin (2 ^ 1023)) = Double.inf false ∧
      Double.round (10 ^ 308) ≠ Double.inf false ∧
      deg2rad_cpp (ieeeOps libm_table) (Double.round (10 ^ 308)) = Double.inf false := by
  decide!

/-- C10, amended: in IEEE 754 double arithmetic `deg2rad_cpp(deg)` is the
rounded quotient by 180 of the rounded product `deg * M_PI`.  For a finite
double `deg` of magnitude at most `2 ^ 1020` it is a finite double within
`5e-18 * |deg| + 2 ^ (-1074)` of `deg * π / 180`; `deg2rad_cpp(0)` is 0 and
`deg2rad_cpp(180)` is `M_PI`, which is within `1e-9` of π.  In exact real
arithmetic `deg2rad_cpp(deg) = deg * π / 180` for every `deg`. -/
theorem deg2rad_cpp_double (l : Libm) (deg : ℚ) (hdeg : |deg| ≤ 2 ^ 1020) :
    deg2rad_cpp (ieeeOps l) (Double.fin deg) =
        Double.div (Double.mul (Double.fin deg) (ieeeOps l).M_PI) (Double.fin 180) ∧
      (∃ r : ℚ, deg2rad_cpp (ieeeOps l) (Double.fin deg) = Double.fin r ∧
        |(r : ℝ) - deg * Real.pi / 180| ≤
          |(deg : ℝ)| * (5 / 10 ^ 18) + (2 : ℝ) ^ (-1074 : ℤ)) ∧
      deg2rad_cpp (ieeeOps l) (Double.fin 0) = Double.fin 0 ∧
      deg2rad_cpp (ieeeOps l) (Double.fin 180) = (ieeeOps l).M_PI ∧
      (∃ m : ℚ, (ieeeOps l).M_PI = Double.fin m ∧ |(m : ℝ) - Real.pi| ≤ 1e-9) ∧
      ∀ x : ℝ, deg2rad_cpp realOps x = x * Real.pi / 180 := by
  refine ⟨?_, ?_, ?_, ?_, ?_, deg2rad_real⟩
  · unfold deg2rad_cpp
    rw [ieee_180]
    rfl
  · obtain ⟨r, hr, he⟩ := ieee_deg2rad_rat l deg hdeg
    refine ⟨r, hr, ?_⟩
    have hM := M_PI_error
    have he2 : |(r : ℝ) - deg * ((884279719003555 / 281474976710656 : ℚ) : ℝ) / 180| ≤
        |(deg : ℝ)| * (39 / 10 ^ 19) + 2 * (2 : ℝ) ^ (-1075 : ℤ) := by
      have := (Rat.cast_le (K := ℝ)).mpr he
      push_cast at this
      push_cast
      exact this
    have h2 : 2 * (2 : ℝ) ^ (-1075 : ℤ) = (2 : ℝ) ^ (-1074 : ℤ) := by
      rw [show (-1074 : ℤ) = -1075 + 1 by norm_num, zpow_add₀ (by norm_num)]
      norm_num
    rw [h2] at he2
    have hsplit : (r : ℝ) - deg * Real.pi / 180 =
        ((r : ℝ) - deg * ((884279719003555 / 281474976710656 : ℚ) : ℝ) / 180) +
          deg * ((((884279719003555 / 281474976710656 : ℚ) : ℝ)) - Real.pi) / 180 := by ring
    rw [hsplit]
    have h3 : |(deg : ℝ) * ((((884279719003555 / 281474976710656 : ℚ) : ℝ)) - Real.pi) / 180| ≤
        |(deg : ℝ)| * (13 / 10 ^ 17) / 180 := by
      rw [abs_div, abs_mul, abs_of_pos (by norm_num : (0 : ℝ) < 180)]
      apply div_le_div_of_nonneg_right _ (by norm_num)
      exact mul_le_mul_of_nonneg_left hM (abs_nonneg _)
    have h4 := abs_add ((r : ℝ) - deg * ((884279719003555 / 281474976710656 : ℚ) : ℝ) / 180)
      (deg * ((((884279719003555 / 281474976710656 : ℚ) : ℝ)) - Real.pi) / 180)
    have hA : 0 ≤ |(deg : ℝ)| := abs_nonneg _
    linarith
  · show deg2rad_cpp (ieeeOps libm_table) (Double.fin 0) = Double.fin 0
    decide!
  · show deg2rad_cpp (ieeeOps libm_table) (Double.fin 180) =
      Double.fin (884279719003555 / 281474976710656)
    decide!
  · refine ⟨884279719003555 / 281474976710656, rfl, ?_⟩
    have hM := M_PI_error
    have : (13 : ℝ) / 10 ^ 17 ≤ 1e-9 := by norm_num
    linarith

/-- Witness of C10, amended: the latitude 8 degrees. -/
theorem deg2rad_cpp_double_witness :
    |(8 : ℚ)| ≤ 2 ^ 1020 ∧
      deg2rad_cpp (ieeeOps libm_table) (Double.fin 8) =
        Double.fin (5030569068109113 / 36028797018963968) ∧
      ∃ r : ℚ, deg2rad_cpp (ieeeOps libm_table) (Double.fin 8) = Double.fin r ∧
        |(r : ℝ) - (8 : ℚ) * Real.pi / 180| ≤
          |((8 : ℚ) : ℝ)| * (5 / 10 ^ 18) + (2 : ℝ) ^ (-1074 : ℤ) :=
  ⟨by decide!, by decide!, (deg2rad_cpp_double libm_table 8 (by decide!)).2.1⟩

/-! ## The builders never fail -/

/-- A property that every pass of a loop keeps holds after the loop. -/
theorem foldl_preserves {σ : Type} (g : σ → Nat → σ) (P : σ → Prop)
    (hstep : ∀ s k, P s → P (g s k)) (l : List Nat) : ∀ s, P s → P (l.foldl g s) := by
  induction l with
  | nil => intro s hs; exact hs
  | cons k l ih => intro s hs; exact ih (g s k) (hstep s k hs)

/-- Both builders with unchecked reads return an `nrow(user)` by
`nrow(facility)` matrix, whatever their arguments and the memory hold. -/
theorem unchecked_shapes {D : Type} (o : DoubleOps D) (beyond : Target → Nat → D)
    (facility user : Matrix D) (distance_cutoff : D) :
    ((distance_matrix_unchecked o beyond facility user).nrow = user.nrow ∧
        (distance_matrix_unchecked o beyond facility user).ncol = facility.nrow) ∧
      ((binary_matrix_unchecked o beyond facility user distance_cutoff).nrow = user.nrow ∧
        (binary_matrix_unchecked o beyond facility user distance_cutoff).ncol =
          facility.nrow) := by
  constructor
  · unfold distance_matrix_unchecked
    refine foldl_preserves _
      (fun m : Matrix D => m.nrow = user.nrow ∧ m.ncol = facility.nrow) ?_ _ _ ⟨rfl, rfl⟩
    intro s i hs
    refine foldl_preserves _
      (fun m : Matrix D => m.nrow = user.nrow ∧ m.ncol = facility.nrow) ?_ _ _ hs
    intro s j hs
    exact hs
  · unfold binary_matrix_unchecked
    refine foldl_preserves _
      (fun m : Matrix Int => m.nrow = user.nrow ∧ m.ncol = facility.nrow) ?_ _ _ ⟨rfl, rfl⟩
    intro s i hs
    refine foldl_preserves _
      (fun m : Matrix Int => m.nrow = user.nrow ∧ m.ncol = facility.nrow) ?_ _ _ hs
    intro s j hs
    dsimp only
    split
    · exact hs
    · split
      · exact hs
      · exact hs

/-- C9: for all inputs, one-column and empty matrices included, and whatever
the memory past the storage holds, `distance_matrix_cpp` and
`binary_matrix_cpp` (with the unchecked reads of Rcpp) return a matrix with
exactly `nrow(user)` rows and `nrow(facility)` columns, hence with a zero
dimension when a matrix has no row. -/
theorem builders_shape {D : Type} (o : DoubleOps D) (beyond : Target → Nat → D)
    (facility user : Matrix D) (distance_cutoff : D) :
    (distance_matrix_unchecked o beyond facility user).nrow = user.nrow ∧
      (distance_matrix_unchecked o beyond facility user).ncol = facility.nrow ∧
      (distance_matrix_unchecked o beyond facility user).data.length =
        user.nrow * facility.nrow ∧
      (binary_matrix_unchecked o beyond facility user distance_cutoff).nrow = user.nrow ∧
      (binary_matrix_unchecked o beyond facility user distance_cutoff).ncol =
        facility.nrow ∧
      (binary_matrix_unchecked o beyond facility user distance_cutoff).data.length =
        user.nrow * facility.nrow := by
  obtain ⟨⟨h1, h2⟩, h3, h4⟩ := unchecked_shapes o beyond facility user distance_cutoff
  refine ⟨h1, h2, ?_, h3, h4, ?_⟩
  · rw [(distance_matrix_unchecked o beyond facility user).size_eq, h1, h2]
  · rw [(binary_matrix_unchecked o beyond facility user distance_cutoff).size_eq, h3, h4]

/-- The Taylor polynomial of the exponential at `x * I`, by real and imaginary
part. -/
theorem exp_I_taylor (x : ℝ) (n : Nat) :
    ∑ m in Finset.range (2 * n), ((x : ℂ) * Complex.I) ^ m / (m.factorial : ℂ) =
      (cos_poly n x : ℂ) + (sin_poly n x : ℂ) * Complex.I := by
  induction n with
  | zero => simp [cos_poly, sin_poly]
  | succ n ih =>
    have hsq : ((x : ℂ) * Complex.I) ^ 2 = -((x : ℂ) ^ 2) := by
      rw [mul_pow, Complex.I_sq]
      ring
    have heven : ((x : ℂ) * Complex.I) ^ (2 * n) = (-1) ^ n * (x : ℂ) ^ (2 * n) := by
      rw [pow_mul, hsq, neg_pow, ← pow_mul]
    have hodd : ((x : ℂ) * Complex.I) ^ (2 * n + 1) =
        (-1) ^ n * (x : ℂ) ^ (2 * n + 1) * Complex.I := by
      rw [pow_succ, heven]
      ring
    rw [show 2 * (n + 1) = 2 * n + 1 + 1 by ring, Finset.sum_range_succ, Finset.sum_range_succ,
      ih, heven, hodd]
    unfold cos_poly sin_poly
    rw [Finset.sum_range_succ, Finset.sum_range_succ]
    push_cast
    ring

/-- The cosine and the sine of a real of magnitude at most 1 differ from their
Taylor polynomials of degree below `2 * n` by at most
`|x| ^ (2 * n) * ((2 * n + 1) / ((2 * n)! * (2 * n)))`. -/
theorem cos_sin_taylor (x : ℝ) (hx : |x| ≤ 1) (n : Nat) (hn : 0 < n) :
    |Real.cos x - cos_poly n x| ≤
        |x| ^ (2 * n) * (((2 * n).succ : ℝ) * (((2 * n).factorial : ℝ) * (2 * n : ℕ))⁻¹) ∧
      |Real.sin x - sin_poly n x| ≤
        |x| ^ (2 * n) * (((2 * n).succ : ℝ) * (((2 * n).factorial : ℝ) * (2 * n : ℕ))⁻¹) := by
  have habs : Complex.abs ((x : ℂ) * Complex.I) = |x| := by
    rw [map_mul, Complex.abs_I, mul_one, Complex.abs_ofReal]
  have hb := Complex.exp_bound (x := (x : ℂ) * Complex.I) (by rw [habs]; exact hx)
    (n := 2 * n) (by omega)
  rw [exp_I_taylor, habs] at hb
  constructor
  · refine le_trans ?_ hb
    have := Complex.abs_re_le_abs
      (Complex.exp ((x : ℂ) * Complex.I) - ((cos_poly n x : ℂ) + (sin_poly n x : ℂ) * Complex.I))
    simpa [Complex.exp_ofReal_mul_I_re] using this
  · refine le_trans ?_ hb
    have := Complex.abs_im_le_abs
      (Complex.exp ((x : ℂ) * Complex.I) - ((cos_poly n x : ℂ) + (sin_poly n x : ℂ) * Complex.I))
    simpa [Complex.exp_ofReal_mul_I_im] using this


/-- The entries of the table that the evaluation at `(8, -1)`, `(-8, 179)`
reaches (sine and cosine of the radian value of 8 degrees, sine of the double
nearest to π/2), and the sine of the double nearest to π/4, are the doubles
nearest to the exact values: each is within half a unit in the last place
(`2 ^ (-56)` for a value between 1/8 and 1/4, `2 ^ (-54)` for a value between
1/2 and 1) of the sine, of the cosine. -/
theorem libm_table_nearest :
    (∃ s : ℚ, libm_table.sin (Double.fin (5030569068109113 / 36028797018963968)) = Double.fin s ∧
        |Real.sin (5030569068109113 / 36028797018963968) - (s : ℝ)| < 1 / 2 ^ 56) ∧
      (∃ c : ℚ, libm_table.cos (Double.fin (5030569068109113 / 36028797018963968)) =
          Double.fin c ∧
        |Real.cos (5030569068109113 / 36028797018963968) - (c : ℝ)| < 1 / 2 ^ 54) ∧
      (∃ s : ℚ, libm_table.sin (Double.fin (884279719003555 / 562949953421312)) = Double.fin s ∧
        |Real.sin (884279719003555 / 562949953421312) - (s : ℝ)| < 1 / 2 ^ 54) ∧
      (∃ s : ℚ, libm_table.sin (Double.fin (884279719003555 / 1125899906842624)) = Double.fin s ∧
        |Real.sin (884279719003555 / 1125899906842624) - (s : ℝ)| < 1 / 2 ^ 54) := by
  have hx : |(5030569068109113 / 36028797018963968 : ℝ)| ≤ 1 := by
    rw [abs_of_pos (by norm_num)]
    norm_num
  obtain ⟨hc, hs⟩ := cos_sin_taylor (5030569068109113 / 36028797018963968) hx 8 (by norm_num)
  have herr : |(5030569068109113 / 36028797018963968 : ℝ)| ^ (2 * 8) *
      (((2 * 8).succ : ℝ) * (((2 * 8).factorial : ℝ) * (2 * 8 : ℕ))⁻¹) ≤ 1 / 10 * (1 / 2 ^ 56) := by
    rw [abs_of_pos (by norm_num)]
    norm_num [Nat.factorial]
  refine ⟨⟨5014239404989977 / 36028797018963968, by decide!, ?_⟩,
    ⟨4459770905381437 / 4503599627370496, by decide!, ?_⟩, ⟨1, by decide!, ?_⟩,
    ⟨1592262918131443 / 2251799813685248, by decide!, ?_⟩⟩
  · have hpoly : |sin_poly 8 (5030569068109113 / 36028797018963968) -
        (5014239404989977 / 36028797018963968 : ℝ)| ≤ 3 / 10 * (1 / 2 ^ 56) := by
      unfold sin_poly
      simp only [Finset.sum_range_succ, Finset.sum_range_zero]
      rw [abs_le]
      constructor <;> norm_num [Nat.factorial]
    have h3 := abs_sub_le (Real.sin (5030569068109113 / 36028797018963968))
      (sin_poly 8 (5030569068109113 / 36028797018963968))
      (5014239404989977 / 36028797018963968 : ℝ)
    have h4 : (0 : ℝ) < 1 / 2 ^ 56 := by positivity
    push_cast
    linarith
  · have hpoly : |cos_poly 8 (5030569068109113 / 36028797018963968) -
        (4459770905381437 / 4503599627370496 : ℝ)| ≤ 84 / 100 * (1 / 2 ^ 54) := by
      unfold cos_poly
      simp only [Finset.sum_range_succ, Finset.sum_range_zero]
      rw [abs_le]
      constructor <;> norm_num [Nat.factorial]
    have h3 := abs_sub_le (Real.cos (5030569068109113 / 36028797018963968))
      (cos_poly 8 (5030569068109113 / 36028797018963968))
      (4459770905381437 / 4503599627370496 : ℝ)
    have h4 : (0 : ℝ) < 1 / 2 ^ 54 := by positivity
    have h5 : (1 : ℝ) / 2 ^ 56 ≤ 1 / 2 ^ 54 := by norm_num
    push_cast
    linarith
  · have h1 := Real.pi_gt_d20
    have h2 := Real.pi_lt_d20
    have hcos : Real.sin (884279719003555 / 562949953421312) =
        Real.cos (Real.pi / 2 - 884279719003555 / 562949953421312) := by
      rw [Real.cos_pi_div_two_sub]
    have hlow := Real.one_sub_sq_div_two_le_cos
      (x := Real.pi / 2 - 884279719003555 / 562949953421312)
    have hup := Real.sin_le_one (884279719003555 / 562949953421312)
    have he0 : 0 ≤ Real.pi / 2 - 884279719003555 / 562949953421312 := by
      norm_num
      linarith
    have he1 : Real.pi / 2 - 884279719003555 / 562949953421312 ≤ 1 / 10 ^ 16 := by
      norm_num
      linarith
    have hsq : (Real.pi / 2 - 884279719003555 / 562949953421312) ^ 2 ≤ (1 / 10 ^ 16) ^ 2 :=
      pow_le_pow_left₀ he0 he1 2
    rw [hcos] at hup ⊢
    rw [abs_lt]
    push_cast
    constructor
    · have : (1 / 10 ^ 16 : ℝ) ^ 2 / 2 < 1 / 2 ^ 54 := by norm_num
      linarith
    · have : (0 : ℝ) < 1 / 2 ^ 54 := by positivity
      linarith
  · have hy : |(884279719003555 / 1125899906842624 : ℝ)| ≤ 1 := by
      rw [abs_of_pos (by norm_num)]
      norm_num
    obtain ⟨_, hs4⟩ := cos_sin_taylor (884279719003555 / 1125899906842624) hy 11 (by norm_num)
    have herr4 : |(884279719003555 / 1125899906842624 : ℝ)| ^ (2 * 11) *
        (((2 * 11).succ : ℝ) * (((2 * 11).factorial : ℝ) * (2 * 11 : ℕ))⁻¹) ≤
          1 / 100 * (1 / 2 ^ 54) := by
      rw [abs_of_pos (by norm_num)]
      norm_num [Nat.factorial]
    have hpoly : |sin_poly 11 (884279719003555 / 1125899906842624) -
        (1592262918131443 / 2251799813685248 : ℝ)| ≤ 74 / 100 * (1 / 2 ^ 54) := by
      unfold sin_poly
      simp only [Finset.sum_range_succ, Finset.sum_range_zero]
      rw [abs_le]
      constructor <;> norm_num [Nat.factorial]
    have h3 := abs_sub_le (Real.sin (884279719003555 / 1125899906842624))
      (sin_poly 11 (884279719003555 / 1125899906842624))
      (1592262918131443 / 2251799813685248 : ℝ)
    have h4 : (0 : ℝ) < 1 / 2 ^ 54 := by positivity
    push_cast
    linarith

end Maxcovr
